import Mathlib

/-!
# Verification of the hier_config configuration-tree core

A shallow embedding of the hier_config repository (hierarchical device
configuration trees, pattern matching, diff/remediation/future-state
algorithms) together with proofs about the embedded code.

Python strings are modelled as Lean `String`, but every primitive text
operation used by the source (startswith, endswith, substring test, strip,
removeprefix, split) is re-implemented over `String.data` (`List Char`) so
that all definitions evaluate inside the kernel.  Python `set`s of strings
are modelled as `Finset String`; Python dicts keyed by strings as ordered
association lists (insertion order is observable through `children_dict`
iteration in `get_children`, so order must be part of the model).
-/

/-! ## Python text primitives (str methods used by the source) -/

/-- `t.startswith(p)` for a single string prefix argument. -/
def pyStartsWith (t p : String) : Bool := p.data.isPrefixOf t.data

/-- `t.endswith(p)` for a single string suffix argument. -/
def pyEndsWith (t p : String) : Bool := p.data.isSuffixOf t.data

/-- `sub in t`: Python substring containment. -/
def pyContains (t sub : String) : Bool :=
  (List.range (t.data.length + 1)).any fun i => sub.data.isPrefixOf (t.data.drop i)

/-- The whitespace characters stripped by `str.strip()` (ASCII fragment). -/
def pyIsSpaceChar (c : Char) : Bool := c == ' ' || c == '\t' || c == '\n' || c == '\r'

/-- `t.strip()`. -/
def pyStrip (t : String) : String :=
  ⟨((t.data.dropWhile pyIsSpaceChar).reverse.dropWhile pyIsSpaceChar).reverse⟩

/-- `t.removeprefix(p)`. -/
def pyRemovePrefix (t p : String) : String :=
  if p.data.isPrefixOf t.data then ⟨t.data.drop p.data.length⟩ else t

/-- `t.split(sep)` for a one-character separator. -/
def pySplitOnChar (c : Char) (t : String) : List String :=
  (t.data.splitOn c).map String.mk

/-- `t.split()` (split on whitespace runs, discarding empty fields). -/
def pySplitWs (t : String) : List String :=
  let step : Char → List (List Char) → List (List Char) := fun c acc =>
    if pyIsSpaceChar c then [] :: acc
    else
      match acc with
      | [] => [[c]]
      | g :: gs => (c :: g) :: gs
  ((t.data.foldr step []).filter (· ≠ [])).map String.mk

/-- `" ".join(l)`. -/
def pyJoinSpace (l : List String) : String :=
  match l with
  | [] => ""
  | w :: ws => ws.foldl (fun acc s => acc ++ " " ++ s) w

/-- `t.isdecimal()` (ASCII digits). -/
def pyIsDecimal (t : String) : Bool := !t.data.isEmpty && t.data.all (·.isDigit)

/-- Numeric value of a non-empty ASCII digit list. -/
def digitsToNat (l : List Char) : Nat :=
  l.foldl (fun acc c => acc * 10 + (c.toNat - 48)) 0

/-- `int(t)`: optional sign, then decimal digits (`none` models `ValueError`). -/
def parsePyInt (t : String) : Option Int :=
  match (pyStrip t).data with
  | [] => none
  | '-' :: ds => if !ds.isEmpty && ds.all (·.isDigit) then some (-(digitsToNat ds : Int)) else none
  | '+' :: ds => if !ds.isEmpty && ds.all (·.isDigit) then some (digitsToNat ds : Int) else none
  | ds => if ds.all (·.isDigit) then some (digitsToNat ds : Int) else none

/-! ## The match engine (`HConfigChild.matches`, child.py)

`MatchRule` (hier_config/model.py is not under src/; the argument surface is
taken from the keyword arguments of `matches`/`get_children` in base.py and
child.py): each of the five fields is independently optional; `equals` is a
single string or a frozenset of strings; `startswith`/`endswith`/`contains`
are a single string or a tuple of strings; `re_search` is a regex pattern.

The `re` module is an external collaborator: a compiled pattern is modelled
by its matching semantics `matchAt text i` ("the pattern matches in `text`
starting at character position `i`"); `re.search` is then the existential
over start positions, which is exactly Python's unanchored-search contract.
-/

/-- A Python value that is either a single `str` or a `frozenset` of them. -/
inductive EqArg where
  | str (s : String)
  | set (ss : List String)

/-- A Python value that is either a single `str` or a `tuple` of them. -/
inductive SwArg where
  | str (s : String)
  | tup (ts : List String)

/-- A regex pattern, modelled by its match-at-position semantics. -/
structure Regex where
  matchAt : String → Nat → Bool

/-- `re.search(pattern, text)` succeeds iff the pattern matches starting at
some character position of `text` (unanchored search, not a full match). -/
def pyReSearch (r : Regex) (t : String) : Bool :=
  (List.range (t.data.length + 1)).any fun i => r.matchAt t i

/-- The keyword arguments accepted by `matches` / `get_children`. -/
structure MatchArgs where
  equals : Option EqArg := none
  startswith : Option SwArg := none
  endswith : Option SwArg := none
  contains : Option SwArg := none
  reSearch : Option Regex := none

/-- `text.startswith(arg)` for a str-or-tuple argument. -/
def swArgTest (t : String) : SwArg → Bool
  | .str s => pyStartsWith t s
  | .tup ts => ts.any (pyStartsWith t)

/-- `text.endswith(arg)` for a str-or-tuple argument. -/
def ewArgTest (t : String) : SwArg → Bool
  | .str s => pyEndsWith t s
  | .tup ts => ts.any (pyEndsWith t)

/-- `HConfigChild.matches` (child.py): `text` satisfies all given criteria.
The five filters are checked in source order; a missing (None) field is
satisfied; `contains` with a tuple is `any(c in text for c in contains)`. -/
def matchesB (text : String) (a : MatchArgs) : Bool :=
  -- Equals filter
  (match a.equals with
   | some (.str s) => text == s
   | some (.set ss) => ss.contains text
   | none => true) &&
  -- Startswith filter
  (match a.startswith with
   | some sw => swArgTest text sw
   | none => true) &&
  -- Regex filter
  (match a.reSearch with
   | some r => pyReSearch r text
   | none => true) &&
  -- Endswith filter
  (match a.endswith with
   | some ew => ewArgTest text ew
   | none => true) &&
  -- Contains filter
  (match a.contains with
   | some (.str s) => pyContains text s
   | some (.tup ts) => ts.any (pyContains text)
   | none => true)

/-- `HConfigChild.lineage_test` (child.py): `lin` is the lineage of the node
as the list of node texts from the outermost ancestor (root excluded) down
to the node itself (`matches` only reads a node's text, so texts suffice).
The rule count must equal the lineage length and each rule must match the
corresponding node when both sequences are walked from the node upward. -/
def lineageTest (lin : List String) (rules : List MatchArgs) : Bool :=
  rules.length == lin.length &&
    (lin.reverse.zip rules.reverse).all fun p => matchesB p.1 p.2

/-! ## `expand_range` (platforms/functions.py) -/

/-- `range(start, stop + 1)` over `Int`. -/
def pyRangeIncl (start stop : Int) : List Int :=
  (List.range (stop + 1 - start).toNat).map fun n => start + (n : Int)

/-- The per-component loop of `expand_range`.  Note the source's control
flow: `if len(start_stop) == 2: ...` is followed by `if len(start_stop) == 1:
... else: raise` (not `elif`), so a two-element component extends `numbers`
and then unconditionally raises `ValueError("Invalid range: ...")`. -/
def expandRangeGo (numbers : List Int) : List String → Except String (List Int)
  | [] => .ok numbers
  | comp :: rest =>
    let startStop := pySplitOnChar '-' comp
    match startStop with
    | [a, b] =>
      match parsePyInt a, parsePyInt b with
      | some _, some _ =>
        -- numbers.extend(range(start, stop + 1)) happens here, but the
        -- second `if`'s else-branch then raises, discarding the extension
        .error ("Invalid range: " ++ comp)
      | _, _ => .error "invalid literal for int()"
    | [a] =>
      match parsePyInt a with
      | some n => expandRangeGo (numbers ++ [n]) rest
      | none => .error "invalid literal for int()"
    | _ => .error ("Invalid range: " ++ comp)

/-- `expand_range` (platforms/functions.py): split on commas, process each
component, then require all covered integers to be pairwise distinct. -/
def expandRange (t : String) : Except String (List Int) :=
  match expandRangeGo [] (pySplitOnChar ',' t) with
  | .error e => .error e
  | .ok numbers =>
    if numbers.dedup.length ≠ numbers.length then
      .error "len(set(numbers)) must be equal to len(numbers)."
    else
      .ok numbers

/-! ## The configuration tree node

`HConfigChild` (child.py): a node owns `text`, an ordered child list, a set
of comments, a set of leaf-scoped tags, a `new_in_config` flag, an
`order_weight` and merge-instance records.  `facts` (an opaque caller bag
never read by the core) and `real_indent_level` (used only by text parsing,
an external collaborator) are omitted.  An `Instance` record is modelled by
its `comments`/`tags` payload (its `id` field is a Python object id).
A root `HConfig` object is represented as a node with empty text; roots are
distinguished by context (their lineage is `[]`). -/
inductive HNode : Type where
  | node (text : String) (children : List HNode) (comments : Finset String)
      (tags : Finset String) (newInConfig : Bool) (orderWeight : Int)
      (instances : List (Finset String × Finset String)) : HNode

def HNode.text : HNode → String
  | .node t _ _ _ _ _ _ => t

def HNode.children : HNode → List HNode
  | .node _ cs _ _ _ _ _ => cs

def HNode.comments : HNode → Finset String
  | .node _ _ cm _ _ _ _ => cm

/-- The stored tag set (`_tags` in child.py); the derived recursive reader
is `HNode.tagsRead` below. -/
def HNode.tagsStored : HNode → Finset String
  | .node _ _ _ tg _ _ _ => tg

def HNode.newInConfig : HNode → Bool
  | .node _ _ _ _ ni _ _ => ni

def HNode.orderWeight : HNode → Int
  | .node _ _ _ _ _ ow _ => ow

def HNode.instances : HNode → List (Finset String × Finset String)
  | .node _ _ _ _ _ _ is' => is'

def HNode.withText (t : String) : HNode → HNode
  | .node _ cs cm tg ni ow is' => .node t cs cm tg ni ow is'

def HNode.withChildren (cs : List HNode) : HNode → HNode
  | .node t _ cm tg ni ow is' => .node t cs cm tg ni ow is'

def HNode.withComments (cm : Finset String) : HNode → HNode
  | .node t cs _ tg ni ow is' => .node t cs cm tg ni ow is'

def HNode.withTagsStored (tg : Finset String) : HNode → HNode
  | .node t cs cm _ ni ow is' => .node t cs cm tg ni ow is'

def HNode.withNewInConfig (ni : Bool) : HNode → HNode
  | .node t cs cm tg _ ow is' => .node t cs cm tg ni ow is'

def HNode.withOrderWeight (ow : Int) : HNode → HNode
  | .node t cs cm tg ni _ is' => .node t cs cm tg ni ow is'

def HNode.withInstances (is' : List (Finset String × Finset String)) : HNode → HNode
  | .node t cs cm tg ni ow _ => .node t cs cm tg ni ow is'

/-- `is_branch` (child.py): `bool(self.children)`. -/
def HNode.isBranch (n : HNode) : Bool := !n.children.isEmpty

/-- A freshly constructed child: `HConfigChild(parent, text)` strips the
text and starts with no children, tags, comments or instances. -/
def mkChild (t : String) : HNode :=
  .node (pyStrip t) [] ∅ ∅ false 0 []

/-- Placeholder returned by the total indexing helper `HNode.childD` for an
out-of-range index (the source would raise; proofs only use valid indices). -/
def dummyNode : HNode := .node "" [] ∅ ∅ false 0 []

def HNode.childD (n : HNode) (i : Nat) : HNode := n.children.getD i dummyNode

/-- Replace the `i`-th child (models in-place mutation of a child object). -/
def setChildAt (n : HNode) (i : Nat) (c : HNode) : HNode :=
  n.withChildren (n.children.set i c)

/-- Apply an in-place update to the `i`-th child. -/
def modifyChildAt (n : HNode) (i : Nat) (f : HNode → HNode) : HNode :=
  setChildAt n i (f (n.childD i))

/-- `text in parent` (`__contains__`, base.py): membership in
`children_dict`, whose key set equals the set of child texts whenever the
list/index invariant (claim C3) holds. -/
def HNode.containsText (n : HNode) (t : String) : Bool :=
  n.children.any (·.text == t)

/-- `get_child(equals=t)`: the first child whose text is `t`. -/
def HNode.findIdxByText (n : HNode) (t : String) : Option Nat :=
  n.children.findIdx? (·.text == t)

/-! ### Tags (child.py `tags` property, `tags_add`, `tags_remove`) -/

mutual
/-- The `tags` property: on a branch the union of all descendant leaf tags,
on a leaf the stored tag set. -/
def HNode.tagsRead : HNode → Finset String
  | .node _ cs _ tg _ _ _ => if cs.isEmpty then tg else tagsReadList cs

def tagsReadList : List HNode → Finset String
  | [] => ∅
  | c :: cs => c.tagsRead ∪ tagsReadList cs
end

mutual
/-- `tags_add` with a single string tag: recurse on branches, insert on
leaves. -/
def tagsAddStr (t : String) : HNode → HNode
  | .node tx cs cm tg ni ow is' =>
    if cs.isEmpty then .node tx cs cm (insert t tg) ni ow is'
    else .node tx (tagsAddStrList t cs) cm tg ni ow is'

def tagsAddStrList (t : String) : List HNode → List HNode
  | [] => []
  | c :: cs => tagsAddStr t c :: tagsAddStrList t cs
end

mutual
/-- `tags_add` with an iterable of tags: recurse on branches, union on
leaves. -/
def tagsAddSet (s : Finset String) : HNode → HNode
  | .node tx cs cm tg ni ow is' =>
    if cs.isEmpty then .node tx cs cm (tg ∪ s) ni ow is'
    else .node tx (tagsAddSetList s cs) cm tg ni ow is'

def tagsAddSetList (s : Finset String) : List HNode → List HNode
  | [] => []
  | c :: cs => tagsAddSet s c :: tagsAddSetList s cs
end

mutual
/-- `tags_remove` with a single string tag: recurse on branches; on a leaf
`self._tags.remove(tag)` raises `KeyError` when the tag is absent. -/
def tagsRemoveStr (t : String) : HNode → Except String HNode
  | .node tx cs cm tg ni ow is' =>
    if cs.isEmpty then
      if t ∈ tg then .ok (.node tx cs cm (tg.erase t) ni ow is')
      else .error "KeyError"
    else
      match tagsRemoveStrList t cs with
      | .ok cs' => .ok (.node tx cs' cm tg ni ow is')
      | .error e => .error e

def tagsRemoveStrList (t : String) : List HNode → Except String (List HNode)
  | [] => .ok []
  | c :: cs =>
    match tagsRemoveStr t c with
    | .ok c' =>
      match tagsRemoveStrList t cs with
      | .ok cs' => .ok (c' :: cs')
      | .error e => .error e
    | .error e => .error e
end

mutual
/-- The descendant leaves of a node, in depth-first order (a leaf node is
its own single descendant leaf). -/
def HNode.descLeaves : HNode → List HNode
  | .node tx cs cm tg ni ow is' =>
    if cs.isEmpty then [.node tx cs cm tg ni ow is'] else descLeavesList cs

def descLeavesList : List HNode → List HNode
  | [] => []
  | c :: cs => c.descLeaves ++ descLeavesList cs
end

/-! ## The platform policy (driver) interface

`HConfigDriverBase` (platforms/driver_base.py) is not under src/.  Modelled
from the spec: the policy exposes boolean/text classification queries driven
by ordered rule lists, each rule applying `lineage_test` to the queried
node; since `matches` only reads texts, every query is a function of the
node's lineage (its list of texts, outermost first, the node's own text
last).  `idempotent_for` returns the matching sibling, modelled as an index
into the candidate list.  `swap_negation` is the platform-specific negation
toggle used by `negate` (child.py's `_swap_negation` is the base prefix
toggle; the Juniper JUNOS driver swaps declaration/negation prefixes). -/
structure Driver where
  negationPrefix : String
  negateWith : List String → Option String
  negationDefaultWhen : List String → Bool
  swapNegation : String → String
  duplicateChildAllowed : List String → Bool
  sectionalOverwrite : List String → Bool
  sectionalOverwriteNoNegate : List String → Bool
  idempotentAvoid : List String → Bool
  idempotentAclCheck : List String → List HNode → Bool
  idempotentFor : List String → List HNode → Option Nat

/-- `_duplicate_child_allowed_check` on the parent into which a child is
being inserted: `False` on a root (`HConfig`, root.py), the policy's
duplicate-allow rules applied to the parent's lineage otherwise. -/
def dupAllowedAt (d : Driver) (parentLin : List String) : Bool :=
  if parentLin.isEmpty then false else d.duplicateChildAllowed parentLin

/-- `HConfigChild._swap_negation` (child.py): toggle the negation prefix on
or off the front of the text (each branch assigns through the stripping
`text` setter). -/
def baseSwapNegation (negPrefix : String) (t : String) : String :=
  if pyStartsWith t negPrefix then pyStrip (pyRemovePrefix t negPrefix)
  else pyStrip (negPrefix ++ t)

/-- `HConfigDriverJuniperJUNOS.swap_negation` (juniper_junos/driver.py):
swap between the negation prefix `"delete "` and the declaration prefix
`"set "`; a text starting with neither raises `ValueError`. -/
def junosSwapNegation (t : String) : Except String String :=
  if pyStartsWith t "delete " then .ok (pyStrip ("set " ++ pyRemovePrefix t "delete "))
  else if pyStartsWith t "set " then .ok (pyStrip ("delete " ++ pyRemovePrefix t "set "))
  else .error "child.text did not start with the negation or declaration prefix."

/-- `HConfigChild.negate` (child.py) as a text rewrite.  `fullLin` is the
node's lineage including its own text.  First a policy-supplied replacement
text, else the `"default "` form when a default-on-negation rule matches,
else the platform swap (dispatch to the driver's swap is modelled from the
spec, driver_base.py not being under src/); every branch assigns through
the stripping `text` setter. -/
def negateText (d : Driver) (fullLin : List String) (t : String) : String :=
  match d.negateWith fullLin with
  | some nw => pyStrip nw
  | none =>
    if d.negationDefaultWhen fullLin then
      pyStrip ("default " ++ pyRemovePrefix t d.negationPrefix)
    else
      d.swapNegation t

/-- `negate` applied to a node sitting at parent lineage `parentLin`. -/
def negateNode (d : Driver) (parentLin : List String) (n : HNode) : HNode :=
  n.withText (negateText d (parentLin ++ [n.text]) n.text)

/-- `is_idempotent_command` (child.py): avoid-rules veto, then the
ACL-specific check, then a generic idempotent-sibling rule. -/
def isIdempotentCommand (d : Driver) (fullLin : List String)
    (otherChildren : List HNode) : Bool :=
  if d.idempotentAvoid fullLin then false
  else if d.idempotentAclCheck fullLin otherChildren then true
  else (d.idempotentFor fullLin otherChildren).isSome

/-! ## The child list / text index pair (base.py `children` / `children_dict`)

One node's mutable state, with `children_dict` modelled as an ordered
association list from text to the position of the referenced child in
`children` (Python dicts preserve insertion order, and `get_children`
iterates `children_dict.items()`, so order is part of the model). -/
structure NodeState where
  children : List HNode
  dict : List (String × Nat)

/-- `children_dict.get(t)`. -/
def dictLookup (d : List (String × Nat)) (t : String) : Option Nat :=
  (d.find? (·.1 == t)).map (·.2)

/-- `rebuild_children_dict` (base.py): `setdefault` per child in list order,
so each distinct text maps to the position of its earliest occurrence, in
first-occurrence order. -/
def rebuildDictGo (i : Nat) (acc : List (String × Nat)) : List HNode → List (String × Nat)
  | [] => acc
  | c :: cs =>
    rebuildDictGo (i + 1)
      (if (dictLookup acc c.text).isSome then acc else acc ++ [(c.text, i)]) cs

def rebuildDict (cs : List HNode) : List (String × Nat) := rebuildDictGo 0 [] cs

/-- `add_child(text, raise_on_duplicate, force_duplicate)` (base.py) on one
node's state.  `dupAllowed` is the value of the parent's
`_duplicate_child_allowed_check()`.  Returns the updated state and the
position of the returned child; `.error` models the raised exceptions.
Note that the index entry for a fresh child is keyed by the *raw* `text`
argument while the stored node text is stripped by the constructor. -/
def addChildE (dupAllowed : Bool) (s : NodeState) (text : String)
    (raiseOnDuplicate forceDuplicate : Bool) : Except String (NodeState × Nat) :=
  if text == "" then .error "text was empty"
  else
    match dictLookup s.dict text with
    | none =>
      -- child does not exist: append and index it
      .ok (⟨s.children ++ [mkChild text], s.dict ++ [(text, s.children.length)]⟩,
        s.children.length)
    | some j =>
      -- child exists and may be installed as a duplicate
      if dupAllowed || forceDuplicate then
        .ok (⟨s.children ++ [mkChild text], s.dict⟩, s.children.length)
      else if raiseOnDuplicate then
        .error ("Found a duplicate section: " ++ text)
      else
        .ok (s, j)

/-- The general predicate scan `get_children` reduces to: the child list
filtered by `matches` (this is the specification the fast paths must agree
with). -/
def getChildrenSpec (s : NodeState) (a : MatchArgs) : List HNode :=
  s.children.filter fun c => matchesB c.text a

/-- `self.children.index(child)` where `child` is a value from
`children_dict`: `list.index` returns the first position whose element
compares equal (`HConfigChild.__eq__` requires equal texts), which under
the list/index invariant is the first position bearing `child`'s text. -/
def indexOfText (cs : List HNode) (t : String) : Nat := cs.findIdx (·.text == t)

/-- The `startswith`-only fast path of `get_children` (base.py): iterate
`children_dict.items()`; yield each child whose key starts with the prefix;
at the first such child evaluate `_duplicate_child_allowed_check()` once;
if duplicates are allowed, switch to a tail scan of the list after that
child and stop; otherwise keep scanning the dict, and when the dict loop
finishes without `break`, the `for`-`else` returns with no tail scan. -/
def swFastScan (dup : Bool) (cs : List HNode) (a : MatchArgs) (sw : SwArg) :
    List (String × Nat) → List HNode
  | [] => []
  | (t, j) :: rest =>
    if swArgTest t sw then
      match cs.get? j with
      | some child =>
        if dup then
          child :: (cs.drop (indexOfText cs child.text + 1)).filter
            (fun c => matchesB c.text a)
        else
          child :: swFastScan dup cs a sw rest
      | none => []  -- a dict entry referencing no child: unreachable under the C3 invariant
    else swFastScan dup cs a sw rest

/-- `get_children` (base.py): the `equals`-single-string fast path, the
`startswith` fast path, and the general linear scan.  `dup` is the parent's
`_duplicate_child_allowed_check()` (evaluated lazily in the source, but a
constant of the parent). -/
def getChildrenF (dup : Bool) (s : NodeState) (a : MatchArgs) : List HNode :=
  match a with
  | ⟨some (.str e), none, none, none, none⟩ =>
    -- find the first child through children_dict
    (match dictLookup s.dict e with
     | some j =>
       match s.children.get? j with
       | some child =>
         child :: (s.children.drop (indexOfText s.children child.text + 1)).filter
           (fun c => matchesB c.text a)
       | none => []  -- unreachable under the C3 invariant
     | none => [])
  | ⟨none, some sw, none, none, none⟩ => swFastScan dup s.children a sw s.dict
  | _ => getChildrenSpec s a

/-! ### The public mutation operations, as they act on one node's state

Each public tree mutation touches a given node's `(children,
children_dict)` pair in exactly one of the following ways (child.py /
base.py):

* `add_child` (also reached via `add_children`, `add_shallow_copy_of`,
  `add_deep_copy_of` and `add_children_deep`): `addChildE` above;
* `delete_child_by_text`: filter the list by text, guarded by index
  membership, then rebuild;
* `delete_child` (also reached via `HConfigChild.delete`): remove the
  identical child (modelled by its position), rebuild if something was
  removed;
* `delete_all_children`: clear both;
* `move` (new-parent side): append the moved child, then rebuild;
* the `text` setter: strip and store the new text, then rebuild the
  parent's index. -/
inductive TreeOp where
  | addChild (text : String) (raiseOnDuplicate forceDuplicate dupAllowed : Bool)
  | deleteChildByText (text : String)
  | deleteChild (i : Nat)
  | deleteAllChildren
  | moveIn (c : HNode)
  | renameChild (i : Nat) (newText : String)

def applyOp (s : NodeState) : TreeOp → NodeState
  | .addChild t r f dup =>
    match addChildE dup s t r f with
    | .ok (s', _) => s'
    | .error _ => s  -- both raises happen before any mutation
  | .deleteChildByText t =>
    if (dictLookup s.dict t).isSome then
      let cs := s.children.filter (¬ ·.text == t)
      ⟨cs, rebuildDict cs⟩
    else s
  | .deleteChild i =>
    if i < s.children.length then
      let cs := s.children.eraseIdx i
      ⟨cs, rebuildDict cs⟩
    else s  -- no identical child in the list: length unchanged, no rebuild
  | .deleteAllChildren => ⟨[], []⟩
  | .moveIn c => ⟨s.children ++ [c], rebuildDict (s.children ++ [c])⟩
  | .renameChild i t =>
    match s.children.get? i with
    | some c =>
      let cs := s.children.set i (c.withText (pyStrip t))
      ⟨cs, rebuildDict cs⟩
    | none => s

def applyOps (s : NodeState) : List TreeOp → NodeState
  | [] => s
  | op :: ops => applyOps (applyOp s op) ops

/-- The list/index agreement invariant: the index is exactly what
`rebuild_children_dict` computes from the list. -/
def dictInvariant (s : NodeState) : Prop := s.dict = rebuildDict s.children

/-- The claim-level reading of the invariant: the index maps each text to
the position of the earliest child bearing it, and has no other entries. -/
def dictCorrect (s : NodeState) : Prop :=
  ∀ t : String,
    dictLookup s.dict t =
      if s.children.any (·.text == t) then some (indexOfText s.children t) else none

/-- An operation whose text argument is already stripped (`add_child` keys
the index by the raw argument but stores the stripped text, so only
pre-stripped inserts keep the two in agreement). -/
def opTrimmed : TreeOp → Bool
  | .addChild t _ _ _ => pyStrip t == t
  | _ => true

/-! ## Structural equality (`HConfigChild.__eq__`, child.py)

`__eq__` compares text, the derived `tags` read, comments and
`new_in_config`, then child counts, then the two child lists sorted by
`order_weight` (`__lt__`), pairwise.  `sorted` is Python's stable sort,
modelled by a stable insertion sort (stable sorts agree extensionally). -/
def insertWeighted (x : HNode) : List HNode → List HNode
  | [] => [x]
  | y :: ys =>
    if x.orderWeight ≤ y.orderWeight then x :: y :: ys else y :: insertWeighted x ys

def sortByWeight : List HNode → List HNode
  | [] => []
  | x :: xs => insertWeighted x (sortByWeight xs)

/-- Membership is preserved by the stable sort. -/
theorem mem_insertWeighted {x a : HNode} : ∀ {l : List HNode},
    a ∈ insertWeighted x l → a = x ∨ a ∈ l
  | [], h => by simp [insertWeighted] at h; simp [h]
  | y :: ys, h => by
    by_cases hc : x.orderWeight ≤ y.orderWeight
    · simpa [insertWeighted, hc, or_assoc] using h
    · rcases by simpa [insertWeighted, hc] using h with h' | h'
      · exact Or.inr (by simp [h'])
      · rcases mem_insertWeighted h' with h'' | h''
        · exact Or.inl h''
        · exact Or.inr (by simp [h''])

theorem mem_sortByWeight {a : HNode} : ∀ {l : List HNode}, a ∈ sortByWeight l → a ∈ l
  | [], h => by simpa [sortByWeight] using h
  | x :: xs, h => by
    rcases mem_insertWeighted (by simpa [sortByWeight] using h) with h' | h'
    · simp [h']
    · exact List.mem_cons_of_mem _ (mem_sortByWeight h')

/-- `HConfigChild.__eq__`: `zip(sorted(...), sorted(...), strict=False)`
stops at the shorter list, after the length equality check. -/
def nodeEq (a b : HNode) : Bool :=
  a.text == b.text && decide (a.tagsRead = b.tagsRead)
    && decide (a.comments = b.comments) && (a.newInConfig == b.newInConfig)
    && (a.children.length == b.children.length)
    && (((sortByWeight a.children).attach.zip (sortByWeight b.children)).all
        fun p => nodeEq p.1.1 p.2)
termination_by sizeOf a
decreasing_by
  have hmem : p.1.1 ∈ a.children := mem_sortByWeight p.1.2
  have h1 : sizeOf p.1.1 < sizeOf a.children := List.sizeOf_lt_of_mem hmem
  cases a with
  | node t cs cm tg ni ow is' => simp only [HNode.children] at h1; simp; omega

/-- Python `list.__eq__` on two child lists: equal lengths and pairwise
`HConfigChild.__eq__` in list order. -/
def listEqTop (xs ys : List HNode) : Bool :=
  xs.length == ys.length && (xs.zip ys).all fun p => nodeEq p.1 p.2

/-! ## Tree-level mutation helpers shared by the algorithms

The diff/remediation/future algorithms read `self`/`target` and build the
delta in place.  They are embedded over plain trees (no explicit
`children_dict`: by the C3 invariant the index's key set is the set of
child texts, so `text in node` is text membership and `children_dict[text]`
is the earliest child with that text). -/

/-- `add_child(text)` with default flags, as called by the algorithms. -/
def treeAddChild (dup : Bool) (n : HNode) (text : String) :
    Except String (HNode × Nat) :=
  if text == "" then .error "text was empty"
  else if !n.containsText text then
    .ok (n.withChildren (n.children ++ [mkChild text]), n.children.length)
  else if dup then
    .ok (n.withChildren (n.children ++ [mkChild text]), n.children.length)
  else
    .ok (n, indexOfText n.children text)

/-- `delete_child_by_text` on a plain tree. -/
def deleteChildByTextTree (n : HNode) (t : String) : HNode :=
  if n.containsText t then n.withChildren (n.children.filter (¬ ·.text == t)) else n

/-- `child.delete()`: remove the identical child, modelled by position. -/
def deleteChildAt (n : HNode) (i : Nat) : HNode :=
  n.withChildren (n.children.eraseIdx i)

/-- `add_shallow_copy_of(c, merged)` (base.py): insert a child with `c`'s
text, then copy comments and order weight onto the returned child, append a
merge-instance record when merging, and copy tags when `c` is a leaf. -/
def addShallowCopyOf (dup : Bool) (dest : HNode) (c : HNode) (merged : Bool) :
    Except String (HNode × Nat) := do
  let (dest1, i) ← treeAddChild dup dest c.text
  let upd : HNode → HNode := fun nc =>
    let nc := if merged then nc.withInstances (nc.instances ++ [(c.comments, c.tagsRead)]) else nc
    let nc := nc.withComments (nc.comments ∪ c.comments)
    let nc := nc.withOrderWeight c.orderWeight
    if c.isBranch then nc else tagsAddSet c.tagsRead nc
  .ok (modifyChildAt dest1 i upd, i)

mutual
/-- `add_deep_copy_of(c, merged)` (base.py): shallow-copy, then deep-copy
every child of `c` into the new child.  `destLin` is the lineage of `dest`
(for the nested `_duplicate_child_allowed_check`s). -/
def addDeepCopyOf (d : Driver) (destLin : List String) (dest c : HNode)
    (merged : Bool) : Except String (HNode × Nat) :=
  match c with
  | .node ct ccs cm tg ni ow is' => do
    let (dest1, i) ← addShallowCopyOf (dupAllowedAt d destLin) dest
      (.node ct ccs cm tg ni ow is') merged
    let nc ← addDeepList d (destLin ++ [(dest1.childD i).text]) (dest1.childD i)
      ccs merged
    .ok (setChildAt dest1 i nc, i)

def addDeepList (d : Driver) (lin : List String) (acc : HNode) (cs : List HNode)
    (merged : Bool) : Except String HNode :=
  match cs with
  | [] => .ok acc
  | cc :: rest => do
    let (acc1, _) ← addDeepCopyOf d lin acc cc merged
    addDeepList d lin acc1 rest merged
end

mutual
/-- Mark a node and all of its descendants `new_in_config`. -/
def setNewInConfigAll : HNode → HNode
  | .node t cs cm tg _ ow is' => .node t (setNewInConfigAllList cs) cm tg true ow is'

def setNewInConfigAllList : List HNode → List HNode
  | [] => []
  | c :: cs => setNewInConfigAll c :: setNewInConfigAllList cs
end

/-- `overwrite_with(other, delta, negate)` (child.py), with method receiver
`self`: when the two child lists differ, optionally negate the old section
inside `delta` and, when `self` has children, re-create the section in
`delta` as a deep copy of `self`. -/
def overwriteWith (d : Driver) (deltaLin : List String) (self other delta : HNode)
    (negateFlag : Bool) : Except String HNode := do
  if listEqTop other.children self.children then .ok delta
  else do
    let delta1 ←
      if negateFlag then do
        let dA := deleteChildByTextTree delta self.text
        let (dB, i) ← treeAddChild (dupAllowedAt d deltaLin) dA self.text
        pure (modifyChildAt dB i fun nn =>
          let nn := negateNode d deltaLin nn
          nn.withComments (insert "dropping section" nn.comments))
      else pure delta
    if !self.children.isEmpty then do
      let dD := deleteChildByTextTree delta1 self.text
      let (dE, j) ← addDeepCopyOf d deltaLin dD self false
      .ok (modifyChildAt dE j fun nn =>
        nn.withComments (insert "re-create section" nn.comments))
    else .ok delta1

/-! ## `_config_to_get_to` (base.py)

The remediation algorithm threaded through explicit state: each function
takes the objects the source reads or mutates and returns the (possibly
updated) `self`, `target` and `delta`.  The source mutates only `delta`;
the threaded embedding reinstalls whatever each recursive call returns, so
that the frame property (claim C10) is a theorem about the embedding, not a
modelling assumption.  `slin`/`dlin` are the lineages (text lists) of the
current `self`/`target` node and of the current `delta` node. -/

/-- `_config_to_get_to_left` (base.py): every `self` child whose text is
absent from `target` and that is not an idempotent command is negated into
`delta`; a section gets a `removes N lines` comment. -/
def c2gLeft (d : Driver) (slin dlin : List String) (targetChildren : List HNode)
    (delta : HNode) : List HNode → Except String HNode
  | [] => .ok delta
  | sc :: rest => do
    if targetChildren.any (·.text == sc.text) then
      c2gLeft d slin dlin targetChildren delta rest
    else if isIdempotentCommand d (slin ++ [sc.text]) targetChildren then
      c2gLeft d slin dlin targetChildren delta rest
    else do
      let (delta1, i) ← treeAddChild (dupAllowedAt d dlin) delta sc.text
      let delta2 := modifyChildAt delta1 i (negateNode d dlin)
      let delta3 :=
        if sc.children.isEmpty then delta2
        else
          modifyChildAt delta2 i fun nn =>
            nn.withComments
              (insert ("removes " ++ toString (sc.children.length + 1) ++ " lines") nn.comments)
      c2gLeft d slin dlin targetChildren delta3 rest

mutual
/-- `_config_to_get_to` (base.py): the left (removal) pass followed by the
right (addition/recursion) pass. -/
def configToGetToSt (d : Driver) (slin dlin : List String)
    (self target delta : HNode) : Except String (HNode × HNode × HNode) :=
  match target with
  | .node tt tcs tcm ttg tni tow tis => do
    let delta1 ← c2gLeft d slin dlin tcs delta self.children
    let (self', tcs', delta2) ← c2gRight d slin dlin self delta1 tcs
    .ok (self', .node tt tcs' tcm ttg tni tow tis, delta2)

/-- `_config_to_get_to_right` (base.py): for each `target` child present in
`self`, recurse into a fresh delta subtree, dropping it when it stays empty
or replacing it by a sectional overwrite; copy absent children in deeply,
marked `new_in_config`, commenting `new section` on sections. -/
def c2gRight (d : Driver) (slin dlin : List String) (self delta : HNode) :
    List HNode → Except String (HNode × List HNode × HNode)
  | [] => .ok (self, [], delta)
  | tc :: rest =>
    match self.findIdxByText tc.text with
    | some j => do
      let sc := self.childD j
      let (delta1, k) ← treeAddChild (dupAllowedAt d dlin) delta tc.text
      let sub := delta1.childD k
      let (sc', tc', sub') ← configToGetToSt d (slin ++ [sc.text]) (dlin ++ [sub.text])
        sc tc sub
      let self1 := setChildAt self j sc'
      let delta2 := setChildAt delta1 k sub'
      let delta3 ←
        if (delta2.childD k).children.isEmpty then pure (deleteChildAt delta2 k)
        else if d.sectionalOverwrite (slin ++ [sc'.text]) then
          overwriteWith d dlin tc' sc' delta2 true
        else if d.sectionalOverwriteNoNegate (slin ++ [sc'.text]) then
          overwriteWith d dlin tc' sc' delta2 false
        else pure delta2
      let (self2, rest', delta4) ← c2gRight d slin dlin self1 delta3 rest
      .ok (self2, tc' :: rest', delta4)
    | none => do
      let (delta1, k) ← addDeepCopyOf d dlin delta tc false
      let delta2 := modifyChildAt delta1 k setNewInConfigAll
      let delta3 := modifyChildAt delta2 k fun nn =>
        if nn.children.isEmpty then nn
        else nn.withComments (insert "new section" nn.comments)
      let (self1, rest', delta4) ← c2gRight d slin dlin self delta3 rest
      .ok (self1, tc :: rest', delta4)
end

/-! ## `_difference` (base.py) -/

/-- The ACL section prefixes (`acl_sw_matches`). -/
def aclSwMatches : List String :=
  ["ip access-list ", "ipv4 access-list ", "ipv6 access-list "]

/-- `_strip_acl_sequence_number` (base.py): drop a leading decimal token;
`words[0]` raises `IndexError` when the text has no words. -/
def stripAclSeq (n : HNode) : Except String String :=
  match pySplitWs n.text with
  | [] => .error "IndexError: list index out of range"
  | w :: ws => .ok (if pyIsDecimal w then pyJoinSpace ws else pyJoinSpace (w :: ws))

/-- `{self._strip_acl_sequence_number(c): c for c in target_child.children}`
as (key, position) pairs in order; a dict comprehension lets a later
duplicate key overwrite an earlier one, hence the last-match lookup. -/
def aclChildrenMapGo (i : Nat) : List HNode → Except String (List (String × Nat))
  | [] => .ok []
  | c :: cs => do
    let k ← stripAclSeq c
    let rest ← aclChildrenMapGo (i + 1) cs
    .ok ((k, i) :: rest)

def aclChildrenMap (tc : HNode) : Except String (List (String × Nat)) :=
  aclChildrenMapGo 0 tc.children

def aclLookup (m : List (String × Nat)) (t : String) : Option Nat :=
  (m.reverse.find? (·.1 == t)).map (·.2)

mutual
/-- `_difference` (base.py): lines of `self` absent from `target`, skipping
negated/defaulted lines, matching ACL entries with sequence numbers
stripped, dropping empty recursed subtrees. -/
def diffSt (d : Driver) (dlin : List String) (self target delta : HNode)
    (tacl : Option (List (String × Nat))) (inAcl : Bool) :
    Except String (HNode × HNode × HNode) :=
  match self with
  | .node st scs scm stg sni sow sis => do
    let (scs', target', delta') ← diffGo d dlin target delta tacl inAcl scs
    .ok (.node st scs' scm stg sni sow sis, target', delta')

def diffGo (d : Driver) (dlin : List String) (target delta : HNode)
    (tacl : Option (List (String × Nat))) (inAcl : Bool) :
    List HNode → Except String (List HNode × HNode × HNode)
  | [] => .ok ([], target, delta)
  | sc :: rest =>
    -- negations and defaults are not dealt with
    if pyStartsWith sc.text d.negationPrefix || pyStartsWith sc.text "default " then do
      let (rest', target', delta') ← diffGo d dlin target delta tacl inAcl rest
      .ok (sc :: rest', target', delta')
    else do
      let tIdx ←
        if inAcl then
          match tacl with
          | none => Except.error "target_acl_children cannot be None"
          | some m => do
            let key ← stripAclSeq sc
            pure (aclLookup m key)
        else pure (target.findIdxByText sc.text)
      match tIdx with
      | none => do
        let (delta1, _) ← addDeepCopyOf d dlin delta sc false
        let (rest', target', delta') ← diffGo d dlin target delta1 tacl inAcl rest
        .ok (sc :: rest', target', delta')
      | some j => do
        let tc := target.childD j
        let (delta1, k) ← treeAddChild (dupAllowedAt d dlin) delta sc.text
        let dchild := delta1.childD k
        let (sc', tc', dchild') ←
          if swArgTest sc.text (.tup aclSwMatches) then do
            let pairs ← aclChildrenMap tc
            diffSt d (dlin ++ [dchild.text]) sc tc dchild (some pairs) true
          else
            diffSt d (dlin ++ [dchild.text]) sc tc dchild none false
        let target1 := setChildAt target j tc'
        let delta2 := setChildAt delta1 k dchild'
        let delta3 :=
          if (delta2.childD k).children.isEmpty then deleteChildAt delta2 k else delta2
        let (rest', target2, delta4) ← diffGo d dlin target1 delta3 tacl inAcl rest
        .ok (sc' :: rest', target2, delta4)
end

/-! ## `_future` (base.py) -/

/-- `_future_pre` (base.py): which `self` children are effectively negated
by a policy replacement text present in `config`, and which `config`
children are to be ignored for it.  Returns
`(negated_or_recursed, config_children_ignore)`. -/
def futurePre (d : Driver) (lin : List String) (selfChildren : List HNode)
    (config : HNode) : List String × List String :=
  selfChildren.foldl
    (fun acc sc =>
      match d.negateWith (lin ++ [sc.text]) with
      | some negText =>
        match config.findIdxByText negText with
        | some j => (acc.1 ++ [sc.text], acc.2 ++ [(config.childD j).text])
        | none => acc
      | none => acc)
    ([], [])

/-- The final loop of `_future`: carry forward every `self` child not
consumed by a special case. -/
def futureCarry (d : Driver) (lin : List String) (future : HNode)
    (nr : List String) : List HNode → Except String HNode
  | [] => .ok future
  | sc :: rest =>
    if nr.contains sc.text then futureCarry d lin future nr rest
    else do
      let (future1, _) ← addDeepCopyOf d lin future sc false
      futureCarry d lin future1 nr rest

mutual
/-- `_future` (base.py): predict the configuration resulting from applying
`config` (a remediation) to `self`, building `future`. -/
def futureSt (d : Driver) (lin : List String) (self config future : HNode) :
    Except String (HNode × HNode × HNode) :=
  match config with
  | .node ct ccs ccm ctg cni cow cis => do
    let (nr, ci) := futurePre d lin self.children (.node ct ccs ccm ctg cni cow cis)
    let (self1, ccs', future1, nr1) ← futureGo d lin self future nr ci ccs
    let future2 ← futureCarry d lin future1 nr1 self1.children
    .ok (self1, .node ct ccs' ccm ctg cni cow cis, future2)

/-- The main loop of `_future` over `config.children`, threading
`negated_or_recursed`. -/
def futureGo (d : Driver) (lin : List String) (self future : HNode)
    (nr ci : List String) :
    List HNode → Except String (HNode × List HNode × HNode × List String)
  | [] => .ok (self, [], future, nr)
  | cc :: rest =>
    if ci.contains cc.text then do
      let (self1, rest', future1, nr1) ← futureGo d lin self future nr ci rest
      .ok (self1, cc :: rest', future1, nr1)
    else if d.sectionalOverwrite (lin ++ [cc.text])
        || d.sectionalOverwriteNoNegate (lin ++ [cc.text]) then do
      let (future1, _) ← addDeepCopyOf d lin future cc false
      let (self1, rest', future2, nr1) ← futureGo d lin self future1 nr ci rest
      .ok (self1, cc :: rest', future2, nr1)
    else
      match d.idempotentFor (lin ++ [cc.text]) self.children with
      | some j => do
        let (future1, _) ← addDeepCopyOf d lin future cc false
        let nr' := nr ++ [(self.childD j).text]
        let (self1, rest', future2, nr1) ← futureGo d lin self future1 nr' ci rest
        .ok (self1, cc :: rest', future2, nr1)
      | none =>
        match self.findIdxByText cc.text with
        | some j => do
          -- config_child is already in self: recurse
          let sc := self.childD j
          let (future1, k) ← addShallowCopyOf (dupAllowedAt d lin) future sc false
          let fc := future1.childD k
          let (sc', cc', fc') ← futureSt d (lin ++ [cc.text]) sc cc fc
          let self1 := setChildAt self j sc'
          let future2 := setChildAt future1 k fc'
          let nr' := nr ++ [cc.text]
          let (self2, rest', future3, nr1) ← futureGo d lin self1 future2 nr' ci rest
          .ok (self2, cc' :: rest', future3, nr1)
        | none =>
          if pyStartsWith cc.text d.negationPrefix then
            -- config_child is being negated
            let unneg := pyRemovePrefix cc.text d.negationPrefix
            if (self.findIdxByText unneg).isSome then do
              let (self1, rest', future1, nr1) ←
                futureGo d lin self future (nr ++ [unneg]) ci rest
              .ok (self1, cc :: rest', future1, nr1)
            else do
              -- account for "no ..." commands in the running config
              let (future1, _) ← addShallowCopyOf (dupAllowedAt d lin) future cc false
              let (self1, rest', future2, nr1) ← futureGo d lin self future1 nr ci rest
              .ok (self1, cc :: rest', future2, nr1)
          else
            match self.findIdxByText (d.negationPrefix ++ cc.text) with
            | some j => do
              -- the negated form of config_child is in self.children
              let nr' := nr ++ [(self.childD j).text]
              let (self1, rest', future1, nr1) ← futureGo d lin self future nr' ci rest
              .ok (self1, cc :: rest', future1, nr1)
            | none => do
              -- no special case: deep-copy it in
              let (future1, _) ← addDeepCopyOf d lin future cc false
              let (self1, rest', future2, nr1) ← futureGo d lin self future1 nr ci rest
              .ok (self1, cc :: rest', future2, nr1)
end

/-! ## Root-level entry points (root.py) -/

/-- A root `HConfig` object with the given top-level children. -/
def rootNode (cs : List HNode) : HNode := .node "" cs ∅ ∅ false 0 []

/-- `HConfig.difference(target)`: build the delta into a fresh root. -/
def differenceTop (d : Driver) (self target : HNode) : Except String HNode :=
  (diffSt d [] self target (rootNode []) none false).map (·.2.2)

/-- `HConfig.config_to_get_to(target)`: build the remediation into a fresh
root. -/
def configToGetTo (d : Driver) (self target : HNode) : Except String HNode :=
  (configToGetToSt d [] [] self target (rootNode [])).map (·.2.2)

/-- `HConfig.future(config)`: build the predicted config into a fresh
root. -/
def futureTop (d : Driver) (self config : HNode) : Except String HNode :=
  (futureSt d [] self config (rootNode [])).map (·.2.2)

/-! ## Tree well-formedness predicates used by the theorems -/

mutual
/-- No node of the tree has two children with the same text. -/
def uniqTree : HNode → Bool
  | .node _ cs _ _ _ _ _ => decide ((cs.map HNode.text).Nodup) && uniqForest cs

def uniqForest : List HNode → Bool
  | [] => true
  | c :: cs => uniqTree c && uniqForest cs
end

mutual
/-- Every node of the tree has non-empty text (the root's own text is not
a configuration line and is exempt: apply `textsOkForest` to `children`). -/
def textsOkTree : HNode → Bool
  | .node t cs _ _ _ _ _ => !(t == "") && textsOkForest cs

def textsOkForest : List HNode → Bool
  | [] => true
  | c :: cs => textsOkTree c && textsOkForest cs
end

/-! ## Concrete instances used by witnesses and counterexamples -/

/-- A platform policy with no rules: base negation prefix `"no "`, no
replacement/default/duplicate/sectional/idempotency rules. -/
def trivialDriver : Driver :=
  ⟨"no ", fun _ => none, fun _ => false, baseSwapNegation "no ", fun _ => false,
    fun _ => false, fun _ => false, fun _ => false, fun _ _ => false, fun _ _ => none⟩

/-- A leaf node with the given text and no decorations. -/
def cLeaf (t : String) : HNode := .node t [] ∅ ∅ false 0 []

/-- A branch node with the given text and children. -/
def cNode (t : String) (cs : List HNode) : HNode := .node t cs ∅ ∅ false 0 []

/-- A tree with two same-text siblings bearing different subtrees (buildable
through `add_child(force_duplicate=True)`). -/
def dupTree : HNode := rootNode [cNode "a" [cLeaf "x"], cNode "a" [cLeaf "y"]]

/-- A parent holding two children with identical text `"a b"` under a
policy that does not allow duplicates (the second child force-inserted:
`add_child("a b")` then `add_child("a b", force_duplicate=True)`), with its
`children_dict` exactly as those two calls leave it. -/
def dupState : NodeState := ⟨[cLeaf "a b", cLeaf "a b"], [("a b", 0)]⟩

/-- The query `get_children(startswith="a")`. -/
def swAArgs : MatchArgs := { startswith := some (.str "a") }

/-! # Theorems -/

/-! ## C4: the match engine -/

/-- C4: `matches` returns True when all five fields are None; with several
fields given it is the conjunction of the per-field tests; an `equals`
given as a set matches iff the text is a member; `re_search` is satisfied
iff the pattern is found at some start position (unanchored search, not a
full match). -/
theorem c4_matches_semantics :
    (∀ t : String, matchesB t {} = true)
    ∧ (∀ (t : String) (a : MatchArgs),
        matchesB t a =
          (matchesB t { equals := a.equals }
            && matchesB t { startswith := a.startswith }
            && matchesB t { reSearch := a.reSearch }
            && matchesB t { endswith := a.endswith }
            && matchesB t { contains := a.contains }))
    ∧ (∀ (t : String) (ss : List String),
        matchesB t { equals := some (.set ss) } = true ↔ t ∈ ss)
    ∧ (∀ (t : String) (r : Regex),
        matchesB t { reSearch := some r } = true ↔
          ∃ i, i ≤ t.data.length ∧ r.matchAt t i = true) := by
  refine ⟨fun t => rfl, fun t a => ?_, fun t ss => ?_, fun t r => ?_⟩
  · simp only [matchesB, Bool.and_true, Bool.true_and, Bool.and_assoc]
  · simp only [matchesB, Bool.and_true, Bool.true_and]
    exact List.contains_iff_exists_mem_beq.trans
      ⟨fun h => by rcases h with ⟨y, hy, he⟩; rcases eq_of_beq he with rfl; exact hy,
       fun h => ⟨t, h, by simp⟩⟩
  · simp only [matchesB, Bool.and_true, Bool.true_and, pyReSearch, List.any_eq_true,
      List.mem_range]
    constructor
    · rintro ⟨i, hi, hm⟩
      exact ⟨i, Nat.lt_succ_iff.mp hi, hm⟩
    · rintro ⟨i, hi, hm⟩
      exact ⟨i, Nat.lt_succ_iff.mpr hi, hm⟩

/-! ## C5: lineage_test -/

/-- C5: `lineage_test(N, R)` succeeds iff the length of N's ancestor chain
(root excluded, N included) equals the length of R and, pairing the two
sequences from the innermost end, each rule matches the corresponding node
(the last rule matches N, the next-to-last N's parent, and so on); any
length mismatch fails — no partial or suffix matches. -/
theorem c5_lineage_test_iff (lin : List String) (rules : List MatchArgs) :
    lineageTest lin rules = true ↔
      (rules.length = lin.length ∧
        ∀ (i : Nat) (hl : i < lin.reverse.length) (hr : i < rules.reverse.length),
          matchesB (lin.reverse.get ⟨i, hl⟩) (rules.reverse.get ⟨i, hr⟩) = true) := by
  simp only [lineageTest, Bool.and_eq_true, beq_iff_eq, List.all_eq_true]
  constructor
  · rintro ⟨h1, h2⟩
    refine ⟨h1, fun i hl hr => ?_⟩
    have hz : i < (lin.reverse.zip rules.reverse).length := by
      rw [List.length_zip]
      simp only [List.length_reverse] at hl hr ⊢
      omega
    have hp := h2 _ (List.getElem_mem hz)
    simpa [List.getElem_zip] using hp
  · rintro ⟨h1, h2⟩
    refine ⟨h1, fun p hp => ?_⟩
    rcases List.mem_iff_getElem.mp hp with ⟨i, hi, hval⟩
    rw [List.length_zip] at hi
    simp only [List.length_reverse] at hi
    have hl : i < lin.reverse.length := by
      simp only [List.length_reverse]
      omega
    have hr : i < rules.reverse.length := by
      simp only [List.length_reverse]
      omega
    have := h2 i hl hr
    rw [← hval]
    simpa [List.getElem_zip] using this

/-! ## C9: expand_range -/

/-- C9: `expand_range` does not return the covered integers for well-formed
dash ranges: the missing `elif` makes every two-element component fall into
the trailing `else: raise`, so the function's own docstring example
`"2-5,8,22-45"` raises `ValueError("Invalid range: 2-5")` instead of
returning `(2, 3, 4, 5, 8, 22, ..., 45)`; only dash-free inputs expand. -/
theorem c9_expand_range_raises :
    expandRange "2-5,8,22-45" = .error "Invalid range: 2-5"
      ∧ expandRange "2-5" = .error "Invalid range: 2-5"
      ∧ expandRange "8,9" = .ok [8, 9] := by
  exact ⟨rfl, rfl, rfl⟩

/-! ## C2: get_children fast paths vs the linear scan -/

/-- C2: the `startswith`-only fast path of `get_children` does not always
return the same sequence as the plain linear scan filtered by `matches`:
with two duplicate-text children under a parent whose policy disallows
duplicates (duplicates force-inserted), the dict loop yields only the first
child and the `for`-`else` returns before the tail scan, while the linear
scan yields both.  (`false` is the parent's
`_duplicate_child_allowed_check()`.) -/
theorem c2_fastpath_divergence :
    getChildrenF false dupState swAArgs = [cLeaf "a b"]
      ∧ getChildrenSpec dupState swAArgs = [cLeaf "a b", cLeaf "a b"]
      ∧ getChildrenF false dupState swAArgs ≠ getChildrenSpec dupState swAArgs := by
  refine ⟨rfl, rfl, fun h => ?_⟩
  have h2 := congrArg List.length h
  simp only [getChildrenF, getChildrenSpec] at h2
  exact absurd h2 (by decide)

/-! ## C7: negate -/

/-- C7: `negate` rewrites a node's text by the first applicable of three
cases — the policy's explicit replacement text; else `"default "` plus the
text without its negation prefix when a default-on-negation rule matches
the lineage; else the prefix toggle (remove the negation prefix if present,
else prepend it); on Juniper JUNOS the toggle instead swaps between the
declaration prefix `"set "` and the negation prefix `"delete "`, and a text
starting with neither raises `ValueError`. -/
theorem c7_negate_cases :
    (∀ (d : Driver) (lin : List String) (t w : String),
        d.negateWith lin = some w → negateText d lin t = pyStrip w)
    ∧ (∀ (d : Driver) (lin : List String) (t : String),
        d.negateWith lin = none → d.negationDefaultWhen lin = true →
          negateText d lin t = pyStrip ("default " ++ pyRemovePrefix t d.negationPrefix))
    ∧ (∀ (d : Driver) (lin : List String) (t : String),
        d.negateWith lin = none → d.negationDefaultWhen lin = false →
          d.swapNegation = baseSwapNegation d.negationPrefix →
          negateText d lin t =
            if pyStartsWith t d.negationPrefix then
              pyStrip (pyRemovePrefix t d.negationPrefix)
            else pyStrip (d.negationPrefix ++ t))
    ∧ (∀ t : String, pyStartsWith t "delete " = true →
        junosSwapNegation t = .ok (pyStrip ("set " ++ pyRemovePrefix t "delete ")))
    ∧ (∀ t : String, pyStartsWith t "delete " = false → pyStartsWith t "set " = true →
        junosSwapNegation t = .ok (pyStrip ("delete " ++ pyRemovePrefix t "set ")))
    ∧ (∀ t : String, pyStartsWith t "delete " = false → pyStartsWith t "set " = false →
        junosSwapNegation t =
          .error "child.text did not start with the negation or declaration prefix.") := by
  refine ⟨fun d lin t w h => ?_, fun d lin t h1 h2 => ?_, fun d lin t h1 h2 h3 => ?_,
    fun t h => ?_, fun t h1 h2 => ?_, fun t h1 h2 => ?_⟩
  · simp [negateText, h]
  · simp [negateText, h1, h2]
  · simp only [negateText, h1, h2, h3, Bool.false_eq_true, if_false, baseSwapNegation]
  · simp [junosSwapNegation, h]
  · simp [junosSwapNegation, h1, h2]
  · simp [junosSwapNegation, h1, h2]

/-- Witness for C7: each case of `c7_negate_cases` discharged at a concrete
driver and text. -/
theorem c7_witness :
    negateText
        ⟨"no ", fun _ => some " interface X ", fun _ => false, baseSwapNegation "no ",
          fun _ => false, fun _ => false, fun _ => false, fun _ => false,
          fun _ _ => false, fun _ _ => none⟩ ["a"] "x" = "interface X"
      ∧ negateText
          ⟨"no ", fun _ => none, fun _ => true, baseSwapNegation "no ",
            fun _ => false, fun _ => false, fun _ => false, fun _ => false,
            fun _ _ => false, fun _ _ => none⟩ ["a"] "no x" = "default x"
      ∧ negateText trivialDriver ["a"] "no x" = "x"
      ∧ negateText trivialDriver ["a"] "x" = "no x"
      ∧ junosSwapNegation "delete a" = .ok "set a"
      ∧ junosSwapNegation "set a" = .ok "delete a"
      ∧ junosSwapNegation "foo" =
          .error "child.text did not start with the negation or declaration prefix." := by
  obtain ⟨h1, h2, h3, h4, h5, h6⟩ := c7_negate_cases
  refine ⟨(h1 _ ["a"] "x" " interface X " rfl).trans rfl,
    (h2 _ ["a"] "no x" rfl rfl).trans rfl,
    (h3 trivialDriver ["a"] "no x" rfl rfl rfl).trans rfl,
    (h3 trivialDriver ["a"] "x" rfl rfl rfl).trans rfl,
    (h4 "delete a" rfl).trans rfl,
    (h5 "set a" rfl rfl).trans rfl,
    h6 "foo" rfl rfl⟩

/-! ## C8: tags -/

/-- Tree induction principle for `HNode` (induction hypotheses for all
children). -/
theorem HNode.inductionOn {P : HNode → Prop}
    (h : ∀ tx cs cm tg ni ow is', (∀ c ∈ cs, P c) → P (.node tx cs cm tg ni ow is'))
    (n : HNode) : P n :=
  @HNode.rec P (fun l => ∀ c ∈ l, P c)
    (fun tx cs cm tg ni ow is' ih => h tx cs cm tg ni ow is' ih)
    (fun c hc => absurd hc (List.not_mem_nil c))
    (fun c cs ihc ihcs x hx => by
      rcases List.mem_cons.mp hx with rfl | hm
      · exact ihc
      · exact ihcs x hm)
    n

/-- The union of the stored tag sets of a list of (leaf) nodes. -/
def leafTagsUnion (l : List HNode) : Finset String :=
  l.foldr (fun c acc => c.tagsStored ∪ acc) ∅

theorem leafTagsUnion_append (a b : List HNode) :
    leafTagsUnion (a ++ b) = leafTagsUnion a ∪ leafTagsUnion b := by
  induction a with
  | nil => simp [leafTagsUnion]
  | cons x xs ihx => simp [leafTagsUnion, Finset.union_assoc] at ihx ⊢; rw [ihx]

theorem tagsRead_eq_leafTagsUnion (n : HNode) :
    n.tagsRead = leafTagsUnion n.descLeaves := by
  induction n using HNode.inductionOn with
  | h tx cs cm tg ni ow is' ih =>
    cases cs with
    | nil => simp [HNode.tagsRead, HNode.descLeaves, leafTagsUnion, HNode.tagsStored]
    | cons c0 cs' =>
      have hl : ∀ l : List HNode, (∀ x ∈ l, x.tagsRead = leafTagsUnion x.descLeaves) →
          tagsReadList l = leafTagsUnion (descLeavesList l) := by
        intro l
        induction l with
        | nil => intro _; simp [tagsReadList, descLeavesList, leafTagsUnion]
        | cons x xs ihx =>
          intro hx
          rw [tagsReadList, descLeavesList, leafTagsUnion_append,
            hx x (by simp), ihx (fun y hy => hx y (by simp [hy]))]
      simp only [HNode.tagsRead, HNode.descLeaves, List.isEmpty_cons, Bool.false_eq_true,
        if_false]
      exact hl (c0 :: cs') ih

theorem tagsAddStr_mem_leaves (t : String) (n : HNode) :
    ∀ c ∈ (tagsAddStr t n).descLeaves, t ∈ c.tagsStored := by
  induction n using HNode.inductionOn with
  | h tx cs cm tg ni ow is' ih =>
    cases cs with
    | nil =>
      intro c hc
      simp [tagsAddStr, HNode.descLeaves] at hc
      simp [hc, HNode.tagsStored]
    | cons c0 cs' =>
      have hl : ∀ l : List HNode,
          (∀ x ∈ l, ∀ c ∈ (tagsAddStr t x).descLeaves, t ∈ c.tagsStored) →
          ∀ c ∈ descLeavesList (tagsAddStrList t l), t ∈ c.tagsStored := by
        intro l
        induction l with
        | nil => intro _ c hc; simp [tagsAddStrList, descLeavesList] at hc
        | cons x xs ihx =>
          intro hx c hc
          rw [tagsAddStrList, descLeavesList] at hc
          rcases List.mem_append.mp hc with hm | hm
          · exact hx x (by simp) c hm
          · exact ihx (fun y hy => hx y (by simp [hy])) c hm
      intro c hc
      simp only [tagsAddStr, List.isEmpty_cons, Bool.false_eq_true, if_false,
        HNode.descLeaves] at hc
      exact hl (c0 :: cs') ih c hc

theorem tagsRemoveStr_ok (t : String) (n : HNode)
    (h : ∀ c ∈ n.descLeaves, t ∈ c.tagsStored) :
    ∃ n', tagsRemoveStr t n = .ok n' ∧ ∀ c ∈ n'.descLeaves, t ∉ c.tagsStored := by
  induction n using HNode.inductionOn with
  | h tx cs cm tg ni ow is' ih =>
    cases cs with
    | nil =>
      have htg : t ∈ tg := by
        have := h (.node tx [] cm tg ni ow is') (by simp [HNode.descLeaves])
        simpa [HNode.tagsStored] using this
      refine ⟨.node tx [] cm (tg.erase t) ni ow is', ?_, ?_⟩
      · simp [tagsRemoveStr, htg]
      · intro c hc
        simp [HNode.descLeaves] at hc
        simp [hc, HNode.tagsStored, Finset.not_mem_erase]
    | cons c0 cs' =>
      have hl : ∀ l : List HNode,
          (∀ x ∈ l,
            (∀ c ∈ x.descLeaves, t ∈ c.tagsStored) →
              ∃ x', tagsRemoveStr t x = .ok x' ∧ ∀ c ∈ x'.descLeaves, t ∉ c.tagsStored) →
          (∀ c ∈ descLeavesList l, t ∈ c.tagsStored) →
          ∃ l', tagsRemoveStrList t l = .ok l' ∧
            (∀ c ∈ descLeavesList l', t ∉ c.tagsStored) ∧ l'.length = l.length := by
        intro l
        induction l with
        | nil =>
          intro _ _
          exact ⟨[], rfl, by intro c hc; simp [descLeavesList] at hc, rfl⟩
        | cons x xs ihx =>
          intro hx hmem
          obtain ⟨x', hx', hxno⟩ := hx x (by simp)
            (fun c hc => hmem c (by rw [descLeavesList]; exact List.mem_append.mpr (Or.inl hc)))
          obtain ⟨xs', hxs', hxsno, hxslen⟩ := ihx (fun y hy => hx y (by simp [hy]))
            (fun c hc => hmem c (by rw [descLeavesList]; exact List.mem_append.mpr (Or.inr hc)))
          refine ⟨x' :: xs', ?_, ?_, by simp [hxslen]⟩
          · rw [tagsRemoveStrList, hx', hxs']
          · intro c hc
            rw [descLeavesList] at hc
            rcases List.mem_append.mp hc with hm | hm
            · exact hxno c hm
            · exact hxsno c hm
      have hmem : ∀ c ∈ descLeavesList (c0 :: cs'), t ∈ c.tagsStored := by
        intro c hc
        apply h
        simp only [HNode.descLeaves, List.isEmpty_cons, Bool.false_eq_true, if_false]
        exact hc
      obtain ⟨l', hl', hno, hlen⟩ := hl (c0 :: cs') ih hmem
      cases l' with
      | nil => simp at hlen
      | cons y ys =>
        refine ⟨.node tx (y :: ys) cm tg ni ow is', ?_, ?_⟩
        · simp only [tagsRemoveStr, List.isEmpty_cons, Bool.false_eq_true, if_false]
          rw [hl']
        · intro c hc
          simp only [HNode.descLeaves, List.isEmpty_cons, Bool.false_eq_true,
            if_false] at hc
          exact hno c hc

/-- C8 counterexample: `tags_remove` with a string tag does not simply
remove the tag from every current descendant leaf — on a branch whose leaf
does not currently bear the tag, `set.remove` raises `KeyError` instead of
completing. -/
theorem c8_counterexample :
    tagsRemoveStr "t" (cNode "a" [cLeaf "x"]) = .error "KeyError" := rfl

/-- C8 (amended): reading tags on any node returns exactly the union of the
stored tag sets of its descendant leaves (a leaf being its own single
descendant leaf, so a branch's read is derived, never its own storage);
`tags_add(t)` results in every current descendant leaf's stored tag set
containing `t` while leaving a branch's own storage untouched; and
`tags_remove(t)` succeeds and removes `t` from every current descendant
leaf *provided every descendant leaf currently bears `t`* (otherwise
`KeyError` is raised, as the counterexample shows). -/
theorem c8_amended_tag_propagation :
    (∀ n : HNode, n.tagsRead = leafTagsUnion n.descLeaves)
    ∧ (∀ (t : String) (n : HNode), ∀ c ∈ (tagsAddStr t n).descLeaves, t ∈ c.tagsStored)
    ∧ (∀ (t : String) (n : HNode),
        (∀ c ∈ n.descLeaves, t ∈ c.tagsStored) →
          ∃ n', tagsRemoveStr t n = .ok n' ∧ ∀ c ∈ n'.descLeaves, t ∉ c.tagsStored)
    ∧ (∀ (t : String) (n : HNode), n.isBranch = true →
        (tagsAddStr t n).tagsStored = n.tagsStored) := by
  refine ⟨tagsRead_eq_leafTagsUnion, tagsAddStr_mem_leaves, tagsRemoveStr_ok,
    fun t n hb => ?_⟩
  cases n with
  | node tx cs cm tg ni ow is' =>
    cases cs with
    | nil => simp [HNode.isBranch, HNode.children] at hb
    | cons c0 cs' => simp [tagsAddStr, HNode.tagsStored]

/-- Witness for C8: the amended theorem applied to a concrete two-level
tree whose leaf bears the tag. -/
theorem c8_witness :
    (∀ c ∈ (cNode "a" [.node "x" [] ∅ {"t"} false 0 []]).descLeaves,
      "t" ∈ c.tagsStored)
    ∧ (∃ n', tagsRemoveStr "t" (cNode "a" [.node "x" [] ∅ {"t"} false 0 []]) = .ok n'
        ∧ ∀ c ∈ n'.descLeaves, "t" ∉ c.tagsStored) :=
  ⟨by decide, c8_amended_tag_propagation.2.2.1 "t"
    (cNode "a" [.node "x" [] ∅ {"t"} false 0 []]) (by decide)⟩

/-! ## C3: the list/index invariant -/

theorem dictLookup_append (a b : List (String × Nat)) (t : String) :
    dictLookup (a ++ b) t = (dictLookup a t).or (dictLookup b t) := by
  simp only [dictLookup, List.find?_append]
  cases a.find? (·.1 == t) with
  | none => simp
  | some v => simp

theorem dictLookup_singleton (k : String) (i : Nat) (t : String) :
    dictLookup [(k, i)] t = if k == t then some i else none := by
  simp only [dictLookup, List.find?]
  by_cases h : k == t
  · simp [h]
  · simp [h]

/-- The characterization of `rebuildDictGo`: a lookup hits the accumulator
first, else the first occurrence within the scanned children (offset by the
start index). -/
theorem dictLookup_rebuildDictGo (t : String) :
    ∀ (cs : List HNode) (i : Nat) (acc : List (String × Nat)),
      dictLookup (rebuildDictGo i acc cs) t =
        (dictLookup acc t).or
          (if cs.any (·.text == t) then some (i + indexOfText cs t) else none)
  | [], i, acc => by simp [rebuildDictGo]
  | c :: rest, i, acc => by
    rw [rebuildDictGo]
    by_cases hct : c.text = t
    · subst hct
      by_cases hacc : (dictLookup acc c.text).isSome
      · rw [if_pos hacc, dictLookup_rebuildDictGo c.text rest (i + 1) acc]
        cases hv : dictLookup acc c.text with
        | none => rw [hv] at hacc; simp at hacc
        | some v => simp [hv]
      · rw [if_neg hacc, dictLookup_rebuildDictGo c.text rest (i + 1) (acc ++ [(c.text, i)])]
        rw [dictLookup_append, dictLookup_singleton]
        cases hv : dictLookup acc c.text with
        | some v => rw [hv] at hacc; simp at hacc
        | none =>
          have hany : (c :: rest).any (·.text == c.text) = true := by
            simp [List.any_cons]
          have hidx : indexOfText (c :: rest) c.text = 0 := by
            simp [indexOfText, List.findIdx_cons]
          rw [hany, hidx]
          simp [Option.or]
    · have hkey : (c.text == t) = false := by simp [hct]
      have hacc' :
          dictLookup (if (dictLookup acc c.text).isSome then acc
            else acc ++ [(c.text, i)]) t = dictLookup acc t := by
        by_cases hacc : (dictLookup acc c.text).isSome
        · rw [if_pos hacc]
        · rw [if_neg hacc, dictLookup_append, dictLookup_singleton, hkey]
          cases dictLookup acc t with
          | none => simp
          | some v => simp
      rw [dictLookup_rebuildDictGo t rest (i + 1) _, hacc']
      have hany : (c :: rest).any (·.text == t) = rest.any (·.text == t) := by
        simp [List.any_cons, hkey]
      rw [hany]
      by_cases hrest : rest.any (·.text == t) = true
      · rw [if_pos hrest, if_pos hrest]
        have hidx : indexOfText (c :: rest) t = indexOfText rest t + 1 := by
          simp [indexOfText, List.findIdx_cons, hkey]
        rw [hidx]
        have : i + 1 + indexOfText rest t = i + (indexOfText rest t + 1) := by omega
        rw [this]
      · rw [if_neg hrest, if_neg hrest]

/-- A rebuilt index satisfies the claim-level mapping property. -/
theorem dictLookup_rebuildDict (cs : List HNode) (t : String) :
    dictLookup (rebuildDict cs) t =
      if cs.any (·.text == t) then some (indexOfText cs t) else none := by
  rw [rebuildDict, dictLookup_rebuildDictGo]
  simp [dictLookup]

/-- Appending a child extends the rebuilt index exactly when the text is
new. -/
theorem rebuildDictGo_append (c : HNode) :
    ∀ (cs : List HNode) (i : Nat) (acc : List (String × Nat)),
      rebuildDictGo i acc (cs ++ [c]) =
        (if (dictLookup (rebuildDictGo i acc cs) c.text).isSome then
          rebuildDictGo i acc cs
        else rebuildDictGo i acc cs ++ [(c.text, i + cs.length)])
  | [], i, acc => by simp [rebuildDictGo]
  | x :: rest, i, acc => by
    rw [List.cons_append, rebuildDictGo, rebuildDictGo,
      rebuildDictGo_append c rest (i + 1) _]
    have : i + 1 + rest.length = i + (x :: rest).length := by simp; omega
    rw [this]

theorem rebuildDict_append (cs : List HNode) (c : HNode) :
    rebuildDict (cs ++ [c]) =
      (if (dictLookup (rebuildDict cs) c.text).isSome then rebuildDict cs
        else rebuildDict cs ++ [(c.text, cs.length)]) := by
  rw [rebuildDict, rebuildDictGo_append, ← rebuildDict]
  simp

/-- C3 single-step preservation: each public mutation, applied to a node
whose index agrees with its child list, leaves them in agreement (inserted
texts pre-stripped). -/
theorem c3_step (s : NodeState) (op : TreeOp) (hinv : dictInvariant s)
    (hop : opTrimmed op = true) : dictInvariant (applyOp s op) := by
  cases op with
  | addChild t r f dup =>
    simp only [opTrimmed, beq_iff_eq] at hop
    simp only [applyOp, addChildE]
    by_cases ht : t == ""
    · simp only [ht, if_pos]; exact hinv
    · rw [if_neg (by simp at ht ⊢; exact ht)]
      cases hl : dictLookup s.dict t with
      | none =>
        simp only [dictInvariant] at hinv ⊢
        rw [hinv] at hl
        rw [rebuildDict_append]
        have : (mkChild t).text = t := by simp [mkChild, HNode.text, hop]
        rw [this, hl]
        simp [hinv]
      | some j =>
        by_cases hdup : (dup || f) = true
        · simp only [hdup, if_true]
          simp only [dictInvariant] at hinv ⊢
          rw [rebuildDict_append]
          have htext : (mkChild t).text = t := by simp [mkChild, HNode.text, hop]
          rw [htext, ← hinv, hl]
          simp [hinv]
        · have hdup' : (dup || f) = false := by simpa using hdup
          simp only [hdup', Bool.false_eq_true, if_false]
          by_cases hr : r = true
          · simp [hr, hinv]
          · simp [hr, hinv]
  | deleteChildByText t =>
    simp only [applyOp]
    by_cases h : (dictLookup s.dict t).isSome
    · rw [if_pos h]; exact rfl
    · rw [if_neg h]; exact hinv
  | deleteChild i =>
    simp only [applyOp]
    by_cases h : i < s.children.length
    · rw [if_pos h]; exact rfl
    · rw [if_neg h]; exact hinv
  | deleteAllChildren => exact rfl
  | moveIn c => exact rfl
  | renameChild i t =>
    simp only [applyOp]
    cases s.children.get? i with
    | none => exact hinv
    | some c => exact rfl

/-- A node whose index agrees with its list satisfies the claim-level
mapping property. -/
theorem dictInvariant_dictCorrect (s : NodeState) (hinv : dictInvariant s) :
    dictCorrect s := by
  intro t
  rw [hinv, dictLookup_rebuildDict]

/-- C3 counterexample: `add_child(" a")` (argument not pre-stripped) leaves
the index keyed by the raw argument while the stored child text is
stripped, so the index holds an entry that is no child's text and the
claimed mapping property fails. -/
theorem c3_counterexample :
    ¬ dictCorrect (applyOp ⟨[], []⟩ (.addChild " a" false false false)) := by
  intro h
  have := h " a"
  revert this
  decide

/-- C3 (amended): after every sequence of public mutations whose inserted
texts are pre-stripped (`add_child` stores stripped text but keys the index
by the raw argument, so unstripped inserts break the agreement, as the
counterexample shows), every node's `children_dict` maps each distinct text
to exactly the earliest child bearing it and contains no other entries. -/
theorem c3_amended_index_invariant (s : NodeState) (ops : List TreeOp)
    (hinv : dictInvariant s) (hops : ∀ op ∈ ops, opTrimmed op = true) :
    dictInvariant (applyOps s ops) ∧ dictCorrect (applyOps s ops) := by
  suffices h : dictInvariant (applyOps s ops) from
    ⟨h, dictInvariant_dictCorrect _ h⟩
  induction ops generalizing s with
  | nil => exact hinv
  | cons op rest ih =>
    rw [applyOps]
    exact ih (applyOp s op) (c3_step s op hinv (hops op (by simp)))
      (fun x hx => hops x (by simp [hx]))

/-- Witness for C3: a concrete mutation sequence (insert, duplicate insert
returning the original, forced duplicate, move-in, rename, delete) on an
initially empty node. -/
theorem c3_witness :
    dictInvariant (⟨[], []⟩ : NodeState)
    ∧ (∀ op ∈ ([.addChild "a b" false false false, .addChild "a b" false false false,
          .addChild "a b" false true false, .moveIn (cLeaf "c"),
          .renameChild 0 "d", .deleteChild 1, .deleteChildByText "d",
          .deleteAllChildren] : List TreeOp), opTrimmed op = true)
    ∧ dictCorrect (applyOps ⟨[], []⟩
        [.addChild "a b" false false false, .addChild "a b" false false false,
          .addChild "a b" false true false, .moveIn (cLeaf "c"),
          .renameChild 0 "d", .deleteChild 1, .deleteChildByText "d",
          .deleteAllChildren]) :=
  ⟨rfl, by decide,
    (c3_amended_index_invariant ⟨[], []⟩ _ rfl (by decide)).2⟩

/-! ## C6: duplicate handling in add_child -/

theorem findIdx_append_all_false (p : HNode → Bool) (a b : List HNode)
    (ha : a.all (fun x => !p x) = true) :
    (a ++ b).findIdx p = a.length + b.findIdx p := by
  induction a with
  | nil => simp
  | cons x xs ihx =>
    simp only [List.all_cons, Bool.and_eq_true, Bool.not_eq_eq_eq_not, Bool.not_true] at ha
    rw [List.cons_append, List.findIdx_cons, ha.1]
    rw [ihx (by simp [List.all_eq_true]; intro y hy; have := ha.2; simp [List.all_eq_true] at this; exact this y hy)]
    simp
    omega

/-- C6: with `t` already present under a non-duplicate-allowing parent and
no force flag, `add_child` returns the existing first child with that text
(two insertions return the same node and leave the state unchanged); with
`raise_on_duplicate` it raises `DuplicateChildError` instead; with
duplicates allowed or forced it appends a new distinct sibling with
identical text, after which `get_children(equals=t)` yields both nodes. -/
theorem c6_duplicate_insertion (s : NodeState) (t : String)
    (hinv : dictInvariant s) (hts : pyStrip t = t) (htne : t ≠ "")
    (habs : dictLookup s.dict t = none) :
    (∀ r f dup : Bool,
      addChildE dup s t r f =
        .ok (⟨s.children ++ [mkChild t], s.dict ++ [(t, s.children.length)]⟩,
          s.children.length))
    ∧ addChildE false ⟨s.children ++ [mkChild t], s.dict ++ [(t, s.children.length)]⟩
        t false false =
        .ok (⟨s.children ++ [mkChild t], s.dict ++ [(t, s.children.length)]⟩,
          s.children.length)
    ∧ addChildE false ⟨s.children ++ [mkChild t], s.dict ++ [(t, s.children.length)]⟩
        t true false = .error ("Found a duplicate section: " ++ t)
    ∧ (∀ dup f : Bool, (dup || f) = true →
        addChildE dup ⟨s.children ++ [mkChild t], s.dict ++ [(t, s.children.length)]⟩
          t false f =
          .ok (⟨(s.children ++ [mkChild t]) ++ [mkChild t],
            s.dict ++ [(t, s.children.length)]⟩, s.children.length + 1))
    ∧ getChildrenF false
        ⟨(s.children ++ [mkChild t]) ++ [mkChild t],
          s.dict ++ [(t, s.children.length)]⟩
        { equals := some (.str t) } = [mkChild t, mkChild t] := by
  have htb : (t == "") = false := by simp [htne]
  have hmkt : (mkChild t).text = t := by simp [mkChild, HNode.text, hts]
  have hlook : dictLookup (s.dict ++ [(t, s.children.length)]) t =
      some s.children.length := by
    rw [dictLookup_append, habs, dictLookup_singleton]
    simp
  have hnone : s.children.any (·.text == t) = false := by
    have := dictInvariant_dictCorrect s hinv t
    rw [habs] at this
    by_cases h : s.children.any (·.text == t) = true
    · rw [if_pos h] at this; exact absurd this (by simp)
    · simpa using h
  refine ⟨fun r f dup => ?_, ?_, ?_, fun dup f hdf => ?_, ?_⟩
  · simp only [addChildE, htb, Bool.false_eq_true, if_false, habs]
  · simp only [addChildE, htb, Bool.false_eq_true, if_false, hlook]
    simp
  · simp only [addChildE, htb, Bool.false_eq_true, if_false, hlook]
    simp
  · simp only [addChildE, htb, Bool.false_eq_true, if_false, hlook, hdf]
    simp
  · simp only [getChildrenF, hlook]
    have hget : ((s.children ++ [mkChild t]) ++ [mkChild t]).get? s.children.length =
        some (mkChild t) := by
      rw [List.get?_eq_getElem?, List.append_assoc,
        List.getElem?_append_right (by simp)]
      simp
    have hidx : indexOfText ((s.children ++ [mkChild t]) ++ [mkChild t])
        (mkChild t).text = s.children.length := by
      rw [List.append_assoc, indexOfText,
        findIdx_append_all_false _ s.children _
          (by
            simp only [List.all_eq_true]
            intro x hx
            simp only [Bool.not_eq_eq_eq_not, Bool.not_true]
            by_cases hxt : (x.text == (mkChild t).text) = true
            · exfalso
              rw [hmkt] at hxt
              have : s.children.any (·.text == t) = true :=
                List.any_eq_true.mpr ⟨x, hx, hxt⟩
              rw [this] at hnone; exact absurd hnone (by simp)
            · simpa using hxt)]
      simp [List.findIdx_cons]
    have hdrop : ((s.children ++ [mkChild t]) ++ [mkChild t]).drop
        (s.children.length + 1) = [mkChild t] := by
      rw [List.append_assoc, List.drop_append_eq_append_drop]
      simp
    have hmatch : matchesB (mkChild t).text { equals := some (.str t) } = true := by
      simp [matchesB, hmkt]
    simp only [hget, hidx, hdrop]
    simp [hmatch]

/-- Witness for C6: the theorem applied to an initially empty parent and
text `"a"`. -/
theorem c6_witness :
    (dictInvariant (⟨[], []⟩ : NodeState) ∧ pyStrip "a" = "a" ∧ "a" ≠ ""
      ∧ dictLookup ([] : List (String × Nat)) "a" = none)
    ∧ (addChildE false (⟨[], []⟩ : NodeState) "a" false false =
        .ok (⟨[mkChild "a"], [("a", 0)]⟩, 0))
    ∧ (addChildE false (⟨[mkChild "a"], [("a", 0)]⟩ : NodeState) "a" false false =
        .ok (⟨[mkChild "a"], [("a", 0)]⟩, 0))
    ∧ (addChildE false (⟨[mkChild "a"], [("a", 0)]⟩ : NodeState) "a" true false =
        .error "Found a duplicate section: a")
    ∧ (addChildE false (⟨[mkChild "a"], [("a", 0)]⟩ : NodeState) "a" false true =
        .ok (⟨[mkChild "a", mkChild "a"], [("a", 0)]⟩, 1))
    ∧ getChildrenF false (⟨[mkChild "a", mkChild "a"], [("a", 0)]⟩ : NodeState)
        { equals := some (.str "a") } = [mkChild "a", mkChild "a"] := by
  have h := c6_duplicate_insertion ⟨[], []⟩ "a" rfl (by decide) (by decide) rfl
  exact ⟨⟨rfl, by decide, by decide, rfl⟩, h.1 false false false, h.2.1, h.2.2.1,
    h.2.2.2.1 false true (by decide), h.2.2.2.2⟩

/-! ## C1: remediation of a tree against itself -/

theorem list_set_getD {α : Type} (l : List α) (j : Nat) (d : α) :
    l.set j (l.getD j d) = l := by
  induction l generalizing j with
  | nil => simp
  | cons x xs ihx =>
    cases j with
    | zero => simp [List.getD]
    | succ n => simp [List.getD, List.set_cons_succ] at *; exact ihx n

/-- Reinstalling the child that sits at a position is the identity. -/
theorem setChildAt_childD (n : HNode) (j : Nat) :
    setChildAt n j (n.childD j) = n := by
  cases n with
  | node t cs cm tg ni ow is' =>
    simp only [setChildAt, HNode.childD, HNode.withChildren, HNode.children]
    exact congrArg (fun l => HNode.node t l cm tg ni ow is') (list_set_getD cs j dummyNode)

/-- In a child list with pairwise-distinct texts, looking a member's text up
finds exactly that member. -/
theorem findIdx_unique_mem (cs : List HNode) (tc : HNode) (hmem : tc ∈ cs)
    (huniq : (cs.map HNode.text).Nodup) :
    ∃ j, cs.findIdx? (·.text == tc.text) = some j ∧ cs.getD j dummyNode = tc := by
  induction cs with
  | nil => cases hmem
  | cons x rest ihx =>
    rcases List.mem_cons.mp hmem with rfl | hm
    · exact ⟨0, by simp [List.findIdx?_cons], by simp [List.getD]⟩
    · have hx : (x.text == tc.text) = false := by
        simp only [List.map_cons, List.nodup_cons] at huniq
        by_cases h : x.text = tc.text
        · exact absurd (h ▸ List.mem_map_of_mem HNode.text hm) huniq.1
        · simp [h]
      obtain ⟨j, hj, hg⟩ := ihx hm (by simp only [List.map_cons, List.nodup_cons] at huniq; exact huniq.2)
      exact ⟨j + 1, by simp [List.findIdx?_cons, hx, hj], by simpa [List.getD] using hg⟩

theorem uniqForest_mem {cs : List HNode} {c : HNode} (h : uniqForest cs = true)
    (hm : c ∈ cs) : uniqTree c = true := by
  induction cs with
  | nil => cases hm
  | cons x rest ihx =>
    rw [uniqForest, Bool.and_eq_true] at h
    rcases List.mem_cons.mp hm with rfl | hmm
    · exact h.1
    · exact ihx h.2 hmm

theorem textsOkForest_mem {cs : List HNode} {c : HNode} (h : textsOkForest cs = true)
    (hm : c ∈ cs) : textsOkTree c = true := by
  induction cs with
  | nil => cases hm
  | cons x rest ihx =>
    rw [textsOkForest, Bool.and_eq_true] at h
    rcases List.mem_cons.mp hm with rfl | hmm
    · exact h.1
    · exact ihx h.2 hmm

theorem textsOkTree_text_ne {c : HNode} (h : textsOkTree c = true) :
    (c.text == "") = false := by
  cases c with
  | node t cs cm tg ni ow is' =>
    rw [textsOkTree, Bool.and_eq_true] at h
    simpa [HNode.text] using h.1

/-- The removal pass of `config_to_get_to(T, T)` emits nothing: every
`self` child's text is present among the target children. -/
theorem c2gLeft_all_present (d : Driver) (slin dlin : List String)
    (tcs : List HNode) (delta : HNode) :
    ∀ scs : List HNode, (∀ sc ∈ scs, tcs.any (·.text == sc.text) = true) →
      c2gLeft d slin dlin tcs delta scs = .ok delta
  | [], _ => rfl
  | sc :: rest, h => by
    rw [c2gLeft]
    rw [h sc (by simp)]
    exact c2gLeft_all_present d slin dlin tcs delta rest (fun x hx => h x (by simp [hx]))

theorem ok_bind {α β : Type} (a : α) (f : α → Except String β) :
    (Except.ok a >>= f) = f a := rfl

theorem pure_eq_ok {α : Type} (a : α) : (pure a : Except String α) = .ok a := rfl

/-- `config_to_get_to(T, T)` leaves an empty delta empty: the removal pass
finds every text present, and the recursion pass deletes each recursed
subtree because it stays empty.  Requires pairwise-distinct sibling texts
(the first lookup would otherwise pair a duplicate with the wrong subtree)
and non-empty node texts (`add_child("")` would otherwise raise). -/
theorem configToGetToSt_self (d : Driver) (c : HNode) (hu : uniqTree c = true)
    (hok : textsOkForest c.children = true) :
    ∀ (slin dlin : List String) (delta : HNode), delta.children = [] →
      configToGetToSt d slin dlin c c delta = .ok (c, c, delta) := by
  induction c using HNode.inductionOn with
  | h tx cs cm tg ni ow is' ih =>
    intro slin dlin delta hd
    rw [uniqTree, Bool.and_eq_true] at hu
    have hNodup : (cs.map HNode.text).Nodup := by
      have := hu.1; simpa using this
    simp only [HNode.children] at hok
    have hleft := c2gLeft_all_present d slin dlin cs delta cs
      (fun sc hsc => List.any_eq_true.mpr ⟨sc, hsc, by simp⟩)
    have hright : ∀ (tcs : List HNode), (∀ x ∈ tcs, x ∈ cs) →
        ∀ delta', delta'.children = [] →
          c2gRight d slin dlin (HNode.node tx cs cm tg ni ow is') delta' tcs =
            .ok (HNode.node tx cs cm tg ni ow is', tcs, delta') := by
      intro tcs
      induction tcs with
      | nil => intro _ delta' hd'; rfl
      | cons tc rest ihr =>
        intro hsub delta' hd'
        have htcmem : tc ∈ cs := hsub tc (by simp)
        obtain ⟨j, hj, hg⟩ := findIdx_unique_mem cs tc htcmem hNodup
        have htcne : (tc.text == "") = false :=
          textsOkTree_text_ne (textsOkForest_mem hok htcmem)
        rw [c2gRight]
        simp only [HNode.findIdxByText, HNode.children, hj]
        -- self.childD j is tc itself
        have hcd : (HNode.node tx cs cm tg ni ow is').childD j = tc := by
          simp only [HNode.childD, HNode.children]; exact hg
        rw [hcd]
        -- the delta add: delta' is childless, so the subtree is fresh
        cases delta' with
        | node dt dcs dcm dtg dni dow dis =>
          simp only [HNode.children] at hd'
          subst hd'
          have hadd : treeAddChild (dupAllowedAt d dlin)
              (HNode.node dt [] dcm dtg dni dow dis) tc.text =
              .ok (HNode.node dt [mkChild tc.text] dcm dtg dni dow dis, 0) := by
            rw [treeAddChild, if_neg (by simp [htcne])]
            rw [if_pos]
            · simp [HNode.withChildren, HNode.children]
            · simp [HNode.containsText, HNode.children]
          rw [hadd, ok_bind]
          have hsubD : (HNode.node dt [mkChild tc.text] dcm dtg dni dow dis).childD 0 =
              mkChild tc.text := rfl
          rw [hsubD]
          -- recurse: both sides are tc, the delta subtree is childless
          have hrec := ih tc htcmem (uniqForest_mem hu.2 htcmem)
            (by cases tc with
                | node a b e f g hgt i =>
                  have := textsOkForest_mem hok htcmem
                  rw [textsOkTree, Bool.and_eq_true] at this
                  simpa [HNode.children] using this.2)
            (slin ++ [tc.text]) (dlin ++ [(mkChild tc.text).text])
            (mkChild tc.text) (by simp [mkChild, HNode.children])
          rw [hrec, ok_bind]
          -- reinstalling tc and the subtree is the identity
          have hset : setChildAt (HNode.node tx cs cm tg ni ow is') j tc =
              HNode.node tx cs cm tg ni ow is' := by
            have := setChildAt_childD (HNode.node tx cs cm tg ni ow is') j
            rw [hcd] at this; exact this
          rw [hset]
          have hsetd : setChildAt (HNode.node dt [mkChild tc.text] dcm dtg dni dow dis) 0
              (mkChild tc.text) = HNode.node dt [mkChild tc.text] dcm dtg dni dow dis := by
            simp [setChildAt, HNode.withChildren, HNode.children]
          rw [hsetd]
          -- the recursed subtree stayed childless and is deleted again
          have hdel : deleteChildAt (HNode.node dt [mkChild tc.text] dcm dtg dni dow dis) 0 =
              HNode.node dt [] dcm dtg dni dow dis := by
            simp [deleteChildAt, HNode.withChildren, HNode.children, List.eraseIdx]
          have hrest := ihr (fun x hx => hsub x (by simp [hx]))
            (HNode.node dt [] dcm dtg dni dow dis) (by simp [HNode.children])
          simp only [HNode.childD, HNode.children, List.getD, List.getElem?_cons_zero,
            Option.getD_some]
          simp only [hdel, hrest, pure_eq_ok, ok_bind, List.get?_cons_zero,
            Option.getD_some, mkChild, List.isEmpty_nil, if_true, deleteChildAt,
            HNode.withChildren, HNode.children, List.eraseIdx_cons_zero]
    rw [configToGetToSt]
    simp only [HNode.children]
    rw [hleft, ok_bind, hright cs (fun x hx => hx) delta hd, ok_bind]

/-- C1 counterexample: with two same-text siblings bearing different
subtrees (buildable via forced duplicates), `config_to_get_to(T, T)` is not
empty: the recursion pairs the second `"a"` with the first `"a"`'s subtree
and emits a non-empty delta (`no x` plus a new `y`). -/
theorem c1_counterexample :
    (configToGetTo trivialDriver dupTree dupTree).map (fun r => r.children.isEmpty)
      = .ok false := rfl

/-- C1 (amended): for every platform policy and every tree in which no node
has two children sharing a text and every node's text is non-empty,
`config_to_get_to(T, T)` returns a tree with no children: the removal pass
emits nothing because every child's text is present in the target, and the
addition/recursion pass deletes every recursed subtree because it ends up
empty.  (Duplicate-text siblings break the claim — see the counterexample —
and an empty-text node would make the delta's `add_child` raise.) -/
theorem c1_amended_remediate_self_empty (d : Driver) (T : HNode)
    (hu : uniqTree T = true) (hok : textsOkForest T.children = true) :
    configToGetTo d T T = .ok (rootNode []) := by
  rw [configToGetTo, configToGetToSt_self d T hu hok [] [] (rootNode []) rfl]
  rfl

/-- Witness for C1: the amended theorem applied to a concrete two-level
tree with distinct sibling texts. -/
theorem c1_witness :
    uniqTree (rootNode [cNode "a" [cLeaf "x"], cLeaf "b"]) = true
    ∧ textsOkForest (rootNode [cNode "a" [cLeaf "x"], cLeaf "b"]).children = true
    ∧ configToGetTo trivialDriver (rootNode [cNode "a" [cLeaf "x"], cLeaf "b"])
        (rootNode [cNode "a" [cLeaf "x"], cLeaf "b"]) = .ok (rootNode []) :=
  ⟨by decide, by decide,
    c1_amended_remediate_self_empty trivialDriver
      (rootNode [cNode "a" [cLeaf "x"], cLeaf "b"]) (by decide) (by decide)⟩

/-! ## C10: the derived-tree operations do not mutate their inputs -/

theorem error_bind {α β : Type} (e : String) (f : α → Except String β) :
    (Except.error e >>= f) = .error e := rfl

/-- Frame property of the threaded remediation: whatever `_config_to_get_to`
returns, the `self` and `target` components are the inputs unchanged (every
mutation the source performs targets the delta). -/
theorem configToGetToSt_frame (d : Driver) :
    ∀ (slin dlin : List String) (self target delta : HNode)
      (r : HNode × HNode × HNode),
      configToGetToSt d slin dlin self target delta = .ok r →
        r.1 = self ∧ r.2.1 = target := by
  intro slin0 dlin0 self0 target0 delta0
  refine configToGetToSt.induct d
    (fun slin dlin self target delta =>
      ∀ r, configToGetToSt d slin dlin self target delta = .ok r →
        r.1 = self ∧ r.2.1 = target)
    (fun slin dlin self delta tcs =>
      ∀ r, c2gRight d slin dlin self delta tcs = .ok r →
        r.1 = self ∧ r.2.1 = tcs)
    ?_ ?_ ?_ ?_ slin0 dlin0 self0 target0 delta0
  · -- configToGetToSt on a destructured target
    intro slin dlin self delta t children cm tg ni ow is' ih r hr
    rw [configToGetToSt] at hr
    cases hL : c2gLeft d slin dlin children delta self.children with
    | error e => rw [hL, error_bind] at hr; exact absurd hr (by simp)
    | ok delta1 =>
      rw [hL, ok_bind] at hr
      cases hR : c2gRight d slin dlin self delta1 children with
      | error e => rw [hR, error_bind] at hr; exact absurd hr (by simp)
      | ok trip =>
        obtain ⟨s', tcs', d2⟩ := trip
        rw [hR, ok_bind] at hr
        obtain ⟨h1, h2⟩ := ih delta1 (s', tcs', d2) hR
        have h1' : s' = self := h1
        have h2' : tcs' = children := h2
        simp only [Except.ok.injEq] at hr
        rw [← hr]
        exact ⟨h1', by rw [h2']⟩
  · -- c2gRight on []
    intro slin dlin self delta r hr
    have hnil : c2gRight d slin dlin self delta [] = Except.ok (self, [], delta) := rfl
    rw [hnil] at hr
    simp only [Except.ok.injEq] at hr
    simp [← hr]
  · -- c2gRight, target child present in self
    intro slin dlin self delta c cs j hfind sc6 ih1 ih2 r hr
    rw [c2gRight.eq_def] at hr
    dsimp only at hr
    simp only [hfind] at hr
    cases hA : treeAddChild (dupAllowedAt d dlin) delta c.text with
    | error e => rw [hA, error_bind] at hr; exact absurd hr (by simp)
    | ok p =>
      obtain ⟨delta1, k⟩ := p
      rw [hA, ok_bind] at hr
      dsimp only at hr
      cases hRec : configToGetToSt d (slin ++ [(self.childD j).text])
          (dlin ++ [(delta1.childD k).text]) (self.childD j) c (delta1.childD k) with
      | error e => rw [hRec, error_bind] at hr; exact absurd hr (by simp)
      | ok trip =>
        obtain ⟨sc', tc', sub'⟩ := trip
        obtain ⟨hsc, htc⟩ := ih1 delta1 k (sc', tc', sub') hRec
        simp only at hsc htc
        subst hsc htc
        rw [hRec, ok_bind] at hr
        dsimp only at hr
        rw [setChildAt_childD] at hr
        have ih2' := ih2 (self.childD j)
        rw [setChildAt_childD] at ih2'
        have hfin : ∀ delta3 : HNode,
            (c2gRight d slin dlin self delta3 cs >>= fun t2 =>
              Except.ok (t2.1, tc' :: t2.2.1, t2.2.2)) = Except.ok r →
            r.1 = self ∧ r.2.1 = tc' :: cs := by
          intro delta3 hbind
          cases hR2 : c2gRight d slin dlin self delta3 cs with
          | error e2 => rw [hR2, error_bind] at hbind; exact absurd hbind (by simp)
          | ok trip2 =>
            rw [hR2, ok_bind] at hbind
            obtain ⟨hh1, hh2⟩ := ih2' delta3 trip2 hR2
            simp only [Except.ok.injEq] at hbind
            rw [← hbind]
            exact ⟨hh1, by rw [hh2]⟩
        by_cases hc1 : ((setChildAt delta1 k sub').childD k).children.isEmpty = true
        · rw [if_pos hc1] at hr
          rw [pure_eq_ok, ok_bind] at hr
          exact hfin _ hr
        · rw [if_neg hc1] at hr
          by_cases hc2 : d.sectionalOverwrite (slin ++ [sc6.text]) = true
          · rw [if_pos hc2] at hr
            cases hO : overwriteWith d dlin tc' sc6 (setChildAt delta1 k sub') true with
            | error e2 => rw [hO, error_bind] at hr; exact absurd hr (by simp)
            | ok delta3 => rw [hO, ok_bind] at hr; exact hfin _ hr
          · rw [if_neg hc2] at hr
            by_cases hc3 : d.sectionalOverwriteNoNegate (slin ++ [sc6.text]) = true
            · rw [if_pos hc3] at hr
              cases hO : overwriteWith d dlin tc' sc6 (setChildAt delta1 k sub') false with
              | error e2 => rw [hO, error_bind] at hr; exact absurd hr (by simp)
              | ok delta3 => rw [hO, ok_bind] at hr; exact hfin _ hr
            · rw [if_neg hc3] at hr
              rw [pure_eq_ok, ok_bind] at hr
              exact hfin _ hr
  · -- c2gRight, target child absent from self
    intro slin dlin self delta c cs hfind ih r hr
    rw [c2gRight.eq_def] at hr
    dsimp only at hr
    simp only [hfind] at hr
    cases hA : addDeepCopyOf d dlin delta c false with
    | error e => rw [hA, error_bind] at hr; exact absurd hr (by simp)
    | ok p =>
      obtain ⟨delta1, k⟩ := p
      rw [hA, ok_bind] at hr
      dsimp only at hr
      cases hR2 : c2gRight d slin dlin self
          (modifyChildAt (modifyChildAt delta1 k setNewInConfigAll) k fun nn =>
            if nn.children.isEmpty = true then nn
            else HNode.withComments (insert "new section" nn.comments) nn) cs with
      | error e => rw [hR2, error_bind] at hr; exact absurd hr (by simp)
      | ok trip2 =>
        obtain ⟨s2, rest', d4⟩ := trip2
        rw [hR2, ok_bind] at hr
        obtain ⟨h1, h2⟩ := ih delta1 k (s2, rest', d4) hR2
        have h1' : s2 = self := h1
        have h2' : rest' = cs := h2
        simp only [Except.ok.injEq] at hr
        rw [← hr]
        exact ⟨h1', by rw [h2']⟩

/-- Frame property of the threaded structural difference: `_difference`
returns its `self` children and `target` unchanged. -/
theorem diffSt_frame (d : Driver) :
    ∀ (dlin : List String) (self target delta : HNode)
      (tacl : Option (List (String × Nat))) (inAcl : Bool)
      (r : HNode × HNode × HNode),
      diffSt d dlin self target delta tacl inAcl = .ok r →
        r.1 = self ∧ r.2.1 = target := by
  intro dlin0 self0 target0 delta0 tacl0 inAcl0
  refine diffSt.induct d
    (fun dlin self target delta tacl inAcl =>
      ∀ r, diffSt d dlin self target delta tacl inAcl = .ok r →
        r.1 = self ∧ r.2.1 = target)
    (fun dlin target delta tacl inAcl scs =>
      ∀ r, diffGo d dlin target delta tacl inAcl scs = .ok r →
        r.1 = scs ∧ r.2.1 = target)
    ?_ ?_ ?_ ?_ ?_ ?_ dlin0 self0 target0 delta0 tacl0 inAcl0
  · -- diffSt on a destructured self
    intro dlin target delta tacl inAcl t children cm tg ni ow is' ih r hr
    rw [diffSt] at hr
    cases hG : diffGo d dlin target delta tacl inAcl children with
    | error e => rw [hG, error_bind] at hr; exact absurd hr (by simp)
    | ok trip =>
      obtain ⟨scs', target', delta'⟩ := trip
      rw [hG, ok_bind] at hr
      obtain ⟨h1, h2⟩ := ih (scs', target', delta') hG
      have h1' : scs' = children := h1
      have h2' : target' = target := h2
      simp only [Except.ok.injEq] at hr
      rw [← hr]
      exact ⟨by rw [h1'], h2'⟩
  · -- diffGo on []
    intro dlin target delta tacl inAcl r hr
    have hnil : diffGo d dlin target delta tacl inAcl [] =
        Except.ok ([], target, delta) := rfl
    rw [hnil] at hr
    simp only [Except.ok.injEq] at hr
    simp [← hr]
  · -- diffGo: negated/defaulted line skipped
    intro dlin target delta tacl inAcl c cs hskip ih r hr
    rw [diffGo.eq_def] at hr
    dsimp only at hr
    rw [if_pos hskip] at hr
    cases hG : diffGo d dlin target delta tacl inAcl cs with
    | error e => rw [hG, error_bind] at hr; exact absurd hr (by simp)
    | ok trip =>
      obtain ⟨rest', target', delta'⟩ := trip
      rw [hG, ok_bind] at hr
      obtain ⟨h1, h2⟩ := ih (rest', target', delta') hG
      have h1' : rest' = cs := h1
      have h2' : target' = target := h2
      simp only [Except.ok.injEq] at hr
      rw [← hr]
      exact ⟨by rw [h1'], h2'⟩
  · -- diffGo: in an ACL with no ACL map — the source raises
    intro dlin target delta c cs hskip ih1 ih2 ih3 ih4 r hr
    rw [diffGo.eq_def] at hr
    dsimp only at hr
    rw [if_neg hskip] at hr
    simp only [error_bind] at hr
    exact absurd hr (by simp)
  · -- diffGo: in an ACL with a map
    intro dlin target delta c cs hskip m ih1 ih2 ih3 ih4 r hr
    rw [diffGo.eq_def] at hr
    dsimp only at hr
    rw [if_neg hskip] at hr
    cases hK : stripAclSeq c with
    | error e => rw [hK] at hr; simp only [error_bind] at hr; exact absurd hr (by simp)
    | ok key =>
      rw [hK] at hr
      simp only [ok_bind, pure_eq_ok] at hr
      have hfin : ∀ delta3 : HNode,
          (diffGo d dlin target delta3 (some m) true cs >>= fun t2 =>
            Except.ok (c :: t2.1, t2.2.1, t2.2.2)) = Except.ok r →
          r.1 = c :: cs ∧ r.2.1 = target := by
        intro delta3 hbind
        cases hG : diffGo d dlin target delta3 (some m) true cs with
        | error e2 => rw [hG, error_bind] at hbind; exact absurd hbind (by simp)
        | ok trip2 =>
          rw [hG, ok_bind] at hbind
          obtain ⟨hh1, hh2⟩ := ih1 delta3 trip2 hG
          simp only [Except.ok.injEq] at hbind
          rw [← hbind]
          exact ⟨by rw [hh1], hh2⟩
      cases hT : aclLookup m key with
      | none =>
        rw [hT] at hr
        dsimp only at hr
        cases hA : addDeepCopyOf d dlin delta c false with
        | error e => rw [hA, error_bind] at hr; exact absurd hr (by simp)
        | ok p =>
          obtain ⟨delta1, k0⟩ := p
          rw [hA, ok_bind] at hr
          dsimp only at hr
          exact hfin delta1 hr
      | some j =>
        rw [hT] at hr
        dsimp only at hr
        cases hA : treeAddChild (dupAllowedAt d dlin) delta c.text with
        | error e => rw [hA, error_bind] at hr; exact absurd hr (by simp)
        | ok p =>
          obtain ⟨delta1, k⟩ := p
          rw [hA, ok_bind] at hr
          dsimp only at hr
          by_cases hsw : swArgTest c.text (.tup aclSwMatches) = true
          · rw [if_pos hsw] at hr
            cases hP : aclChildrenMap (target.childD j) with
            | error e => rw [hP, error_bind] at hr; exact absurd hr (by simp)
            | ok pairs =>
              rw [hP, ok_bind] at hr
              cases hRec : diffSt d (dlin ++ [(delta1.childD k).text]) c
                  (target.childD j) (delta1.childD k) (some pairs) true with
              | error e => rw [hRec, error_bind] at hr; exact absurd hr (by simp)
              | ok trip =>
                obtain ⟨sc', tc', dchild'⟩ := trip
                obtain ⟨hsc, htc⟩ := ih3 j delta1 k pairs (sc', tc', dchild') hRec
                have hsc' : sc' = c := hsc
                have htc' : tc' = target.childD j := htc
                subst hsc' htc'
                rw [hRec, ok_bind] at hr
                dsimp only at hr
                rw [setChildAt_childD] at hr
                exact hfin _ hr
          · rw [if_neg hsw] at hr
            cases hRec : diffSt d (dlin ++ [(delta1.childD k).text]) c
                (target.childD j) (delta1.childD k) none false with
            | error e => rw [hRec, error_bind] at hr; exact absurd hr (by simp)
            | ok trip =>
              obtain ⟨sc', tc', dchild'⟩ := trip
              obtain ⟨hsc, htc⟩ := ih4 j delta1 k (sc', tc', dchild') hRec
              have hsc' : sc' = c := hsc
              have htc' : tc' = target.childD j := htc
              subst hsc' htc'
              rw [hRec, ok_bind] at hr
              dsimp only at hr
              rw [setChildAt_childD] at hr
              exact hfin _ hr
  · -- diffGo: not in an ACL
    intro dlin target delta tacl inAcl c cs hskip hnacl ih1 ih2 ih3 ih4 r hr
    rw [diffGo.eq_def] at hr
    dsimp only at hr
    rw [if_neg hskip, if_neg hnacl] at hr
    simp only [pure_eq_ok, ok_bind] at hr
    have hfin : ∀ delta3 : HNode,
        (diffGo d dlin target delta3 tacl inAcl cs >>= fun t2 =>
          Except.ok (c :: t2.1, t2.2.1, t2.2.2)) = Except.ok r →
        r.1 = c :: cs ∧ r.2.1 = target := by
      intro delta3 hbind
      cases hG : diffGo d dlin target delta3 tacl inAcl cs with
      | error e2 => rw [hG, error_bind] at hbind; exact absurd hbind (by simp)
      | ok trip2 =>
        rw [hG, ok_bind] at hbind
        obtain ⟨hh1, hh2⟩ := ih1 delta3 trip2 hG
        simp only [Except.ok.injEq] at hbind
        rw [← hbind]
        exact ⟨by rw [hh1], hh2⟩
    cases hT : target.findIdxByText c.text with
    | none =>
      rw [hT] at hr
      dsimp only at hr
      cases hA : addDeepCopyOf d dlin delta c false with
      | error e => rw [hA, error_bind] at hr; exact absurd hr (by simp)
      | ok p =>
        obtain ⟨delta1, k0⟩ := p
        rw [hA, ok_bind] at hr
        dsimp only at hr
        exact hfin delta1 hr
    | some j =>
      rw [hT] at hr
      dsimp only at hr
      cases hA : treeAddChild (dupAllowedAt d dlin) delta c.text with
      | error e => rw [hA, error_bind] at hr; exact absurd hr (by simp)
      | ok p =>
        obtain ⟨delta1, k⟩ := p
        rw [hA, ok_bind] at hr
        dsimp only at hr
        by_cases hsw : swArgTest c.text (.tup aclSwMatches) = true
        · rw [if_pos hsw] at hr
          cases hP : aclChildrenMap (target.childD j) with
          | error e => rw [hP, error_bind] at hr; exact absurd hr (by simp)
          | ok pairs =>
            rw [hP, ok_bind] at hr
            cases hRec : diffSt d (dlin ++ [(delta1.childD k).text]) c
                (target.childD j) (delta1.childD k) (some pairs) true with
            | error e => rw [hRec, error_bind] at hr; exact absurd hr (by simp)
            | ok trip =>
              obtain ⟨sc', tc', dchild'⟩ := trip
              obtain ⟨hsc, htc⟩ := ih3 j delta1 k pairs (sc', tc', dchild') hRec
              have hsc' : sc' = c := hsc
              have htc' : tc' = target.childD j := htc
              subst hsc' htc'
              rw [hRec, ok_bind] at hr
              dsimp only at hr
              rw [setChildAt_childD] at hr
              exact hfin _ hr
        · rw [if_neg hsw] at hr
          cases hRec : diffSt d (dlin ++ [(delta1.childD k).text]) c
              (target.childD j) (delta1.childD k) none false with
          | error e => rw [hRec, error_bind] at hr; exact absurd hr (by simp)
          | ok trip =>
            obtain ⟨sc', tc', dchild'⟩ := trip
            obtain ⟨hsc, htc⟩ := ih4 j delta1 k (sc', tc', dchild') hRec
            have hsc' : sc' = c := hsc
            have htc' : tc' = target.childD j := htc
            subst hsc' htc'
            rw [hRec, ok_bind] at hr
            dsimp only at hr
            rw [setChildAt_childD] at hr
            exact hfin _ hr

/-- Frame property of the threaded future-state prediction: `_future`
returns its `self` and `config` unchanged. -/
theorem futureSt_frame (d : Driver) :
    ∀ (lin : List String) (self config future : HNode)
      (r : HNode × HNode × HNode),
      futureSt d lin self config future = .ok r → r.1 = self ∧ r.2.1 = config := by
  intro lin0 self0 config0 future0
  refine futureSt.induct d
    (fun lin self config future =>
      ∀ r, futureSt d lin self config future = .ok r → r.1 = self ∧ r.2.1 = config)
    (fun lin self future nr ci ccs =>
      ∀ r, futureGo d lin self future nr ci ccs = .ok r → r.1 = self ∧ r.2.1 = ccs)
    ?_ ?_ ?_ ?_ ?_ ?_ ?_ ?_ ?_ ?_ lin0 self0 config0 future0
  · -- futureSt on a destructured config
    intro lin self future t children cm tg ni ow is' nr ci hpre ih r hr
    rw [futureSt] at hr
    rw [hpre] at hr
    dsimp only at hr
    cases hG : futureGo d lin self future nr ci children with
    | error e => rw [hG, error_bind] at hr; exact absurd hr (by simp)
    | ok q =>
      obtain ⟨self1, ccs', future1, nr1⟩ := q
      rw [hG, ok_bind] at hr
      dsimp only at hr
      obtain ⟨h1, h2⟩ := ih (self1, ccs', future1, nr1) hG
      have h1' : self1 = self := h1
      have h2' : ccs' = children := h2
      cases hC : futureCarry d lin future1 nr1 self1.children with
      | error e => rw [hC, error_bind] at hr; exact absurd hr (by simp)
      | ok future2 =>
        rw [hC, ok_bind] at hr
        simp only [Except.ok.injEq] at hr
        rw [← hr]
        exact ⟨h1', by rw [h2']⟩
  · -- futureGo on []
    intro lin self future nr ci r hr
    have hnil : futureGo d lin self future nr ci [] =
        Except.ok (self, [], future, nr) := rfl
    rw [hnil] at hr
    simp only [Except.ok.injEq] at hr
    simp [← hr]
  · -- futureGo: config child ignored
    intro lin self future nr ci c cs hci ih r hr
    rw [futureGo.eq_def] at hr
    dsimp only at hr
    rw [if_pos hci] at hr
    cases hG : futureGo d lin self future nr ci cs with
    | error e => rw [hG, error_bind] at hr; exact absurd hr (by simp)
    | ok q =>
      obtain ⟨self1, rest', future1, nr1⟩ := q
      rw [hG, ok_bind] at hr
      obtain ⟨h1, h2⟩ := ih (self1, rest', future1, nr1) hG
      have h1' : self1 = self := h1
      have h2' : rest' = cs := h2
      simp only [Except.ok.injEq] at hr
      rw [← hr]
      exact ⟨h1', by rw [h2']⟩
  · -- futureGo: sectional overwrite
    intro lin self future nr ci c cs hci hsec ih r hr
    rw [futureGo.eq_def] at hr
    dsimp only at hr
    rw [if_neg hci, if_pos hsec] at hr
    cases hA : addDeepCopyOf d lin future c false with
    | error e => rw [hA, error_bind] at hr; exact absurd hr (by simp)
    | ok p =>
      obtain ⟨future1, k0⟩ := p
      rw [hA, ok_bind] at hr
      dsimp only at hr
      cases hG : futureGo d lin self future1 nr ci cs with
      | error e => rw [hG, error_bind] at hr; exact absurd hr (by simp)
      | ok q =>
        obtain ⟨self1, rest', future2, nr1⟩ := q
        rw [hG, ok_bind] at hr
        obtain ⟨h1, h2⟩ := ih future1 (self1, rest', future2, nr1) hG
        have h1' : self1 = self := h1
        have h2' : rest' = cs := h2
        simp only [Except.ok.injEq] at hr
        rw [← hr]
        exact ⟨h1', by rw [h2']⟩
  · -- futureGo: idempotent command
    intro lin self future nr ci c cs hci hsec j hidem ih r hr
    rw [futureGo.eq_def] at hr
    dsimp only at hr
    rw [if_neg hci, if_neg hsec] at hr
    rw [hidem] at hr
    dsimp only at hr
    cases hA : addDeepCopyOf d lin future c false with
    | error e => rw [hA, error_bind] at hr; exact absurd hr (by simp)
    | ok p =>
      obtain ⟨future1, k0⟩ := p
      rw [hA, ok_bind] at hr
      dsimp only at hr
      cases hG : futureGo d lin self future1 (nr ++ [(self.childD j).text]) ci cs with
      | error e => rw [hG, error_bind] at hr; exact absurd hr (by simp)
      | ok q =>
        obtain ⟨self1, rest', future2, nr1⟩ := q
        rw [hG, ok_bind] at hr
        obtain ⟨h1, h2⟩ := ih future1 (self1, rest', future2, nr1) hG
        have h1' : self1 = self := h1
        have h2' : rest' = cs := h2
        simp only [Except.ok.injEq] at hr
        rw [← hr]
        exact ⟨h1', by rw [h2']⟩
  · -- futureGo: config child present in self, recurse
    intro lin self future nr ci c cs hci hsec hidem j hfind sc6 ih1 ih2 r hr
    rw [futureGo.eq_def] at hr
    dsimp only at hr
    rw [if_neg hci, if_neg hsec] at hr
    rw [hidem] at hr
    dsimp only at hr
    rw [hfind] at hr
    dsimp only at hr
    cases hA : addShallowCopyOf (dupAllowedAt d lin) future (self.childD j) false with
    | error e => rw [hA, error_bind] at hr; exact absurd hr (by simp)
    | ok p =>
      obtain ⟨future1, k⟩ := p
      rw [hA, ok_bind] at hr
      dsimp only at hr
      cases hRec : futureSt d (lin ++ [c.text]) (self.childD j) c (future1.childD k) with
      | error e => rw [hRec, error_bind] at hr; exact absurd hr (by simp)
      | ok trip =>
        obtain ⟨sc', cc', fc'⟩ := trip
        obtain ⟨hsc, hcc⟩ := ih1 future1 k (sc', cc', fc') hRec
        have hsc' : sc' = self.childD j := hsc
        have hcc' : cc' = c := hcc
        subst hsc' hcc'
        rw [hRec, ok_bind] at hr
        dsimp only at hr
        rw [setChildAt_childD] at hr
        have ih2' := ih2 future1 k (self.childD j) fc'
        rw [setChildAt_childD] at ih2'
        cases hG : futureGo d lin self (setChildAt future1 k fc') (nr ++ [cc'.text]) ci cs with
        | error e => rw [hG, error_bind] at hr; exact absurd hr (by simp)
        | ok q =>
          obtain ⟨self2, rest', future3, nr1⟩ := q
          rw [hG, ok_bind] at hr
          obtain ⟨h1, h2⟩ := ih2' (self2, rest', future3, nr1) hG
          have h1' : self2 = self := h1
          have h2' : rest' = cs := h2
          simp only [Except.ok.injEq] at hr
          rw [← hr]
          exact ⟨h1', by rw [h2']⟩
  · -- futureGo: config child negates a present command
    intro lin self future nr ci c cs hci hsec hidem hfind hneg unneg hun ih r hr
    rw [futureGo.eq_def] at hr
    dsimp only at hr
    rw [if_neg hci, if_neg hsec] at hr
    rw [hidem] at hr
    dsimp only at hr
    rw [hfind] at hr
    dsimp only at hr
    rw [if_pos hneg] at hr
    rw [if_pos hun] at hr
    cases hG : futureGo d lin self future
        (nr ++ [pyRemovePrefix c.text d.negationPrefix]) ci cs with
    | error e => rw [hG, error_bind] at hr; exact absurd hr (by simp)
    | ok q =>
      obtain ⟨self1, rest', future1, nr1⟩ := q
      rw [hG, ok_bind] at hr
      obtain ⟨h1, h2⟩ := ih (self1, rest', future1, nr1) hG
      have h1' : self1 = self := h1
      have h2' : rest' = cs := h2
      simp only [Except.ok.injEq] at hr
      rw [← hr]
      exact ⟨h1', by rw [h2']⟩
  · -- futureGo: "no ..." command with no counterpart in self
    intro lin self future nr ci c cs hci hsec hidem hfind hneg unneg hun ih r hr
    rw [futureGo.eq_def] at hr
    dsimp only at hr
    rw [if_neg hci, if_neg hsec] at hr
    rw [hidem] at hr
    dsimp only at hr
    rw [hfind] at hr
    dsimp only at hr
    rw [if_pos hneg] at hr
    rw [if_neg hun] at hr
    cases hA : addShallowCopyOf (dupAllowedAt d lin) future c false with
    | error e => rw [hA, error_bind] at hr; exact absurd hr (by simp)
    | ok p =>
      obtain ⟨future1, k0⟩ := p
      rw [hA, ok_bind] at hr
      dsimp only at hr
      cases hG : futureGo d lin self future1 nr ci cs with
      | error e => rw [hG, error_bind] at hr; exact absurd hr (by simp)
      | ok q =>
        obtain ⟨self1, rest', future2, nr1⟩ := q
        rw [hG, ok_bind] at hr
        obtain ⟨h1, h2⟩ := ih future1 (self1, rest', future2, nr1) hG
        have h1' : self1 = self := h1
        have h2' : rest' = cs := h2
        simp only [Except.ok.injEq] at hr
        rw [← hr]
        exact ⟨h1', by rw [h2']⟩
  · -- futureGo: the negated form of the config child is in self
    intro lin self future nr ci c cs hci hsec hidem hfind hneg j hnegform nr6 ih r hr
    rw [futureGo.eq_def] at hr
    dsimp only at hr
    rw [if_neg hci, if_neg hsec] at hr
    rw [hidem] at hr
    dsimp only at hr
    rw [hfind] at hr
    dsimp only at hr
    rw [if_neg hneg] at hr
    rw [hnegform] at hr
    dsimp only at hr
    cases hG : futureGo d lin self future (nr ++ [(self.childD j).text]) ci cs with
    | error e => rw [hG, error_bind] at hr; exact absurd hr (by simp)
    | ok q =>
      obtain ⟨self1, rest', future1, nr1⟩ := q
      rw [hG, ok_bind] at hr
      obtain ⟨h1, h2⟩ := ih (self1, rest', future1, nr1) hG
      have h1' : self1 = self := h1
      have h2' : rest' = cs := h2
      simp only [Except.ok.injEq] at hr
      rw [← hr]
      exact ⟨h1', by rw [h2']⟩
  · -- futureGo: no special case, deep copy
    intro lin self future nr ci c cs hci hsec hidem hfind hneg hnegform ih r hr
    rw [futureGo.eq_def] at hr
    dsimp only at hr
    rw [if_neg hci, if_neg hsec] at hr
    rw [hidem] at hr
    dsimp only at hr
    rw [hfind] at hr
    dsimp only at hr
    rw [if_neg hneg] at hr
    rw [hnegform] at hr
    dsimp only at hr
    cases hA : addDeepCopyOf d lin future c false with
    | error e => rw [hA, error_bind] at hr; exact absurd hr (by simp)
    | ok p =>
      obtain ⟨future1, k0⟩ := p
      rw [hA, ok_bind] at hr
      dsimp only at hr
      cases hG : futureGo d lin self future1 nr ci cs with
      | error e => rw [hG, error_bind] at hr; exact absurd hr (by simp)
      | ok q =>
        obtain ⟨self1, rest', future2, nr1⟩ := q
        rw [hG, ok_bind] at hr
        obtain ⟨h1, h2⟩ := ih future1 (self1, rest', future2, nr1) hG
        have h1' : self1 = self := h1
        have h2' : rest' = cs := h2
        simp only [Except.ok.injEq] at hr
        rw [← hr]
        exact ⟨h1', by rw [h2']⟩

/-- C10: the derived-tree operations are pure with respect to their inputs:
whatever `difference`, `config_to_get_to` and `future` return, the threaded
`self` and `target`/`config` trees come back unchanged (same children,
texts, tags, comments and flags) — every mutation (negation rewrites,
comment additions, `new_in_config` marking) lands on the freshly built
delta/future tree. -/
theorem c10_input_trees_unchanged :
    (∀ (d : Driver) (S T : HNode) (r : HNode × HNode × HNode),
        diffSt d [] S T (rootNode []) none false = .ok r → r.1 = S ∧ r.2.1 = T)
    ∧ (∀ (d : Driver) (S T : HNode) (r : HNode × HNode × HNode),
        configToGetToSt d [] [] S T (rootNode []) = .ok r → r.1 = S ∧ r.2.1 = T)
    ∧ (∀ (d : Driver) (S T : HNode) (r : HNode × HNode × HNode),
        futureSt d [] S T (rootNode []) = .ok r → r.1 = S ∧ r.2.1 = T) :=
  ⟨fun d S T r h => diffSt_frame d [] S T (rootNode []) none false r h,
    fun d S T r h => configToGetToSt_frame d [] [] S T (rootNode []) r h,
    fun d S T r h => futureSt_frame d [] S T (rootNode []) r h⟩

/-- Witness for C10: the three operations run on concrete distinct trees;
each returns its inputs unchanged next to the built delta/future tree. -/
theorem c10_witness :
    (diffSt trivialDriver [] (rootNode [cLeaf "a"]) (rootNode [cLeaf "b"])
        (rootNode []) none false =
      .ok (rootNode [cLeaf "a"], rootNode [cLeaf "b"], rootNode [cLeaf "a"]))
    ∧ ((rootNode [cLeaf "a"], rootNode [cLeaf "b"],
        rootNode [cLeaf "a"]) : HNode × HNode × HNode).1 = rootNode [cLeaf "a"]
    ∧ (configToGetToSt trivialDriver [] [] (rootNode [cLeaf "a"])
        (rootNode [cLeaf "b"]) (rootNode []) =
      .ok (rootNode [cLeaf "a"], rootNode [cLeaf "b"],
        rootNode [cLeaf "no a", .node "b" [] ∅ ∅ true 0 []]))
    ∧ ((rootNode [cLeaf "a"], rootNode [cLeaf "b"],
        rootNode [cLeaf "no a", .node "b" [] ∅ ∅ true 0 []]) :
          HNode × HNode × HNode).2.1 = rootNode [cLeaf "b"]
    ∧ (futureSt trivialDriver [] (rootNode [cLeaf "a"]) (rootNode [cLeaf "b"])
        (rootNode []) =
      .ok (rootNode [cLeaf "a"], rootNode [cLeaf "b"],
        rootNode [cLeaf "b", cLeaf "a"]))
    ∧ ((rootNode [cLeaf "a"], rootNode [cLeaf "b"],
        rootNode [cLeaf "b", cLeaf "a"]) : HNode × HNode × HNode).1 =
          rootNode [cLeaf "a"] :=
  ⟨rfl,
    (c10_input_trees_unchanged.1 trivialDriver (rootNode [cLeaf "a"])
      (rootNode [cLeaf "b"]) _ rfl).1,
    rfl,
    (c10_input_trees_unchanged.2.1 trivialDriver (rootNode [cLeaf "a"])
      (rootNode [cLeaf "b"]) _ rfl).2,
    rfl,
    (c10_input_trees_unchanged.2.2 trivialDriver (rootNode [cLeaf "a"])
      (rootNode [cLeaf "b"]) _ rfl).1⟩
